import Mathlib

/-!
Verification of the ames_graphormer repository core logic.

This file gives a shallow embedding, in Lean, of:
* `src/graphormer/functional.py` — the BFS shortest path indexer
  (`floyd_warshall_source_to_all`), the all pairs wrapper
  (`all_pairs_shortest_path`), and the batched merger
  (`batched_shortest_path_distance`);
* `src/data/data_cleaning.py` — the super node augmentation and the
  edge feature consistency assertion in `process`;
* `src/graphormer/train.py` — `should_step`, the per batch
  clip/step sequencing, and the end of epoch checkpoint decision;
and proves the specification claims about them.

Python dicts are embedded as association lists in insertion order
(assignment on a fresh key appends; assignment on a present key
replaces in place), graphs as a node list with a directed edge list
(networkx DiGraph adjacency is successor sets in first insertion
order), and Python ints as Nat or Int as appropriate.
-/

/-- Python dict lookup on an association list: first entry with the key. -/
def lookupD {α : Type} (l : List (Nat × α)) (k : Nat) : Option α :=
  (l.find? (fun p => p.1 == k)).map Prod.snd

/-- Python `k in dict`. -/
def containsD {α : Type} (l : List (Nat × α)) (k : Nat) : Bool :=
  l.any (fun p => p.1 == k)

/-- Python dict assignment `d[k] = v`: replace in place if the key is
present, append otherwise. -/
def insertD {α : Type} (l : List (Nat × α)) (k : Nat) (v : α) : List (Nat × α) :=
  if containsD l k then l.map (fun p => if p.1 == k then (k, v) else p)
  else l ++ [(k, v)]

/-- Keys of an association list, in insertion order. -/
def keysD {α : Type} (l : List (Nat × α)) : List Nat := l.map Prod.fst

/-- A networkx style directed graph: an ordered node list and an ordered
directed edge list, as produced by `to_networkx` on a PyG `Data`
(nodes `0..N-1` in order, then the edges of `edge_index` in order). -/
structure Graph where
  nodes : List Nat
  edges : List (Nat × Nat)
deriving Repr, DecidableEq

/-- `G[v]` in networkx: the successors of `v` in first insertion order,
without duplicates (a DiGraph ignores a repeated `add_edge`). -/
def Graph.adj (G : Graph) (v : Nat) : List Nat :=
  ((G.edges.filter (fun e => e.1 == v)).map Prod.snd).dedup

/-- `G.edges()` enumeration order in networkx: grouped by source node in
node insertion order, successors in adjacency order. -/
def Graph.edgeEnum (G : Graph) : List (Nat × Nat) :=
  G.nodes.flatMap (fun u => (G.adj u).map (fun w => (u, w)))

/-- The dict `edges = {edge: i for i, edge in enumerate(G.edges())}` of
`floyd_warshall_source_to_all`, applied to one edge: the position of the
edge in the enumeration. -/
def Graph.edgeIdx (G : Graph) (u w : Nat) : Nat :=
  G.edgeEnum.indexOf (u, w)

/-- Graphs produced by `to_networkx`: nodes are `0..N-1` in order and all
edge endpoints are nodes. -/
def Graph.wellFormed (G : Graph) : Prop :=
  G.nodes = List.range G.nodes.length ∧
  ∀ e ∈ G.edges, e.1 ∈ G.nodes ∧ e.2 ∈ G.nodes

instance (G : Graph) : Decidable G.wellFormed := by
  unfold Graph.wellFormed; infer_instance

/-- The two dicts built by the BFS of `floyd_warshall_source_to_all`:
`node_paths` and `edge_paths`. -/
structure PathState where
  np : List (Nat × List Nat)
  ep : List (Nat × List Nat)
deriving Repr, DecidableEq

/-- `edges[tuple(node_paths[w][-2:])]`: the edge index of the last two
nodes of a path. -/
def lastTwoIdx (G : Graph) (p : List Nat) : Nat :=
  match p.reverse with
  | b :: a :: _ => G.edgeIdx a b
  | _ => 0

/-- The body of `for w in G[v]` in `floyd_warshall_source_to_all`: if `w`
is not yet in `node_paths`, record its node path and edge path and add it
to `nextlevel`. -/
def visitNeighbor (G : Graph) (v : Nat) (acc : PathState × List Nat) (w : Nat) :
    PathState × List Nat :=
  let (st, next) := acc
  if containsD st.np w then acc
  else
    let pv := (lookupD st.np v).getD []
    let ev := (lookupD st.ep v).getD []
    let pw := pv ++ [w]
    (⟨insertD st.np w pw, insertD st.ep w (ev ++ [lastTwoIdx G pw])⟩, next ++ [w])

/-- One iteration of the `while nextlevel` loop: expand every frontier
node, collecting the next frontier. -/
def processLevel (G : Graph) (frontier : List Nat) (st : PathState) :
    PathState × List Nat :=
  frontier.foldl (fun acc v => (G.adj v).foldl (visitNeighbor G v) acc) (st, [])

/-- The `while nextlevel` loop of `floyd_warshall_source_to_all`.  The
Python loop terminates because each level adds only unvisited nodes; the
`fuel` argument is an upper bound on the number of iterations, chosen
large enough at the call site that it never cuts the loop short. -/
def bfsLoop (G : Graph) (cutoff : Option Nat) :
    Nat → Nat → List Nat → PathState → PathState
  | 0, _, _, st => st
  | fuel + 1, level, frontier, st =>
    if frontier = [] then st
    else
      let res := processLevel G frontier st
      let level' := level + 1
      match cutoff with
      | some c => if c ≤ level' then res.1
                  else bfsLoop G cutoff fuel level' res.2 res.1
      | none => bfsLoop G cutoff fuel level' res.2 res.1

/-- `floyd_warshall_source_to_all(G, source, cutoff)`: raises
`NodeNotFound` when the source is not a node, otherwise runs the level
synchronous BFS starting from `node_paths = {source: [source]}`,
`edge_paths = {source: []}`, `nextlevel = [source]`, `level = 0`.
The fuel `G.edges.length + 2` exceeds the number of loop iterations that
are possible before the frontier empties (each iteration except the last
adds at least one key, and every key after the source is an edge target),
so it never cuts the loop short. -/
def floyd_warshall_source_to_all (G : Graph) (source : Nat) (cutoff : Option Nat) :
    Except String PathState :=
  if source ∈ G.nodes then
    .ok (bfsLoop G cutoff (G.edges.length + 2) 0 [source]
      ⟨[(source, [source])], [(source, [])]⟩)
  else .error "NodeNotFound"

/-- The result of `floyd_warshall_source_to_all` when the source is known
to be a node (the only way the all pairs wrappers call it). -/
def fwsD (G : Graph) (source : Nat) (cutoff : Option Nat) : PathState :=
  match floyd_warshall_source_to_all G source cutoff with
  | .ok st => st
  | .error _ => ⟨[], []⟩

/-- `all_pairs_shortest_path(G)`: the dict comprehensions
`{n: floyd_warshall_source_to_all(G, n) for n in G}` split into the
`node_paths` and `edge_paths` tables.  No cutoff is passed. -/
def all_pairs_shortest_path (G : Graph) :
    List (Nat × List (Nat × List Nat)) × List (Nat × List (Nat × List Nat)) :=
  (G.nodes.foldl (fun acc n => insertD acc n (fwsD G n none).np) [],
   G.nodes.foldl (fun acc n => insertD acc n (fwsD G n none).ep) [])

/-- `batched_all_pairs_shortest_path(G)`: textually the same computation
as `all_pairs_shortest_path`. -/
def batched_all_pairs_shortest_path (G : Graph) :
    List (Nat × List (Nat × List Nat)) × List (Nat × List (Nat × List Nat)) :=
  all_pairs_shortest_path G

/-- The relabeling map `{i: i + shift for i in range(num_nodes)}` passed
to `nx.relabel_nodes`: nodes outside `range(num_nodes)` keep their
label. -/
def relabelFn (numNodes shift x : Nat) : Nat :=
  if x < numNodes then x + shift else x

/-- `nx.relabel_nodes(graph, {i: i + shift for i in range(num_nodes)})`:
the node list and the edge endpoints are relabeled, preserving order. -/
def relabelShift (G : Graph) (shift : Nat) : Graph :=
  ⟨G.nodes.map (relabelFn G.nodes.length shift),
   G.edges.map (fun e =>
     (relabelFn G.nodes.length shift e.1, relabelFn G.nodes.length shift e.2))⟩

/-- The first loop of `batched_shortest_path_distance`: relabel each
graph of the batch by the running node count offset. -/
def relabelAll : List Graph → Nat → List Graph
  | [], _ => []
  | g :: gs, shift => relabelShift g shift :: relabelAll gs (shift + g.nodes.length)

/-- The second loop of `batched_shortest_path_distance`: run the all
pairs computation on each relabeled graph and merge the tables with
`node_paths[k] = v` / `edge_paths[k] = v`. -/
def mergeTables (gs : List Graph) :
    List (Nat × List (Nat × List Nat)) × List (Nat × List (Nat × List Nat)) :=
  gs.foldl
    (fun acc g =>
      let p := batched_all_pairs_shortest_path g
      (p.1.foldl (fun a kv => insertD a kv.1 kv.2) acc.1,
       p.2.foldl (fun a kv => insertD a kv.1 kv.2) acc.2))
    ([], [])

/-- `batched_shortest_path_distance(data)` on a batch given as the list
of its member graphs (`pool.map` preserves list order, so the pool is a
plain map). -/
def batched_shortest_path_distance (graphs : List Graph) :
    List (Nat × List (Nat × List Nat)) × List (Nat × List (Nat × List Nat)) :=
  mergeTables (relabelAll graphs 0)

/-- The node count offset of graph `i` of the batch: the sum of the node
counts of the preceding graphs. -/
def offsetOf (graphs : List Graph) (i : Nat) : Nat :=
  ((graphs.take i).map (fun g => g.nodes.length)).sum

/-- The tensor level content of a PyG `Data` record that
`data_cleaning.process` manipulates: only the row counts and the edge
index pairs matter for the claims. -/
structure PygData where
  xRows : Nat
  edgeIndex : List (Nat × Nat)
  edgeAttrRows : Nat
deriving Repr, DecidableEq

/-- The super node augmentation of `data_cleaning.process` (lines
174-177): prepend one sentinel node feature row, then prepend the edge
list `[(0, i) for i in range(data.x.shape[0])]` built from the *updated*
row count, so it has `N + 1` entries `(0,0), (0,1), ..., (0,N)`. -/
def augment (d : PygData) : PygData :=
  let xRows := d.xRows + 1
  let newIdxs := (List.range xRows).map (fun i => (0, i))
  { d with xRows := xRows, edgeIndex := newIdxs ++ d.edgeIndex }

/-- Maximum of a list of integers, as `torch.max` on a nonempty
tensor. -/
def maxOf : List Int → Int
  | [] => 0
  | x :: xs => xs.foldl max x

/-- Modelled from the spec: the `shortest_path_distance(data.edge_index,
max_distance)` called by `data_cleaning.process` (a variant returning
`(node_paths, edge_paths, extra_edge_idxs)` as tensors, not present
under `src/`) is abstracted by its outputs: `extraRows` is the number of
rows of `extra_edge_idxs` and `edgePathVals` the entries of the
`edge_paths` tensor.  `processRecord` is the remainder of
`data_cleaning.process`: it builds the padded edge feature table with
`1 + E + extraRows` rows (one sentinel row, the real rows, the extra
sentinel rows) and asserts
`data.edge_attr.shape[0] - 1 == torch.max(data.edge_paths)`; an assert
failure is a raised `AssertionError`, so the record conversion aborts
with no data produced. -/
def processRecord (d : PygData) (extraRows : Nat) (edgePathVals : List Int) :
    Except String (PygData × List Int) :=
  if ((1 + d.edgeAttrRows + extraRows : Nat) : Int) - 1 = maxOf edgePathVals then
    .ok ({ augment d with edgeAttrRows := 1 + d.edgeAttrRows + extraRows }, edgePathVals)
  else .error "Missing edge attrs for graph!"

/-- `should_step` of `train.py`, verbatim: Python ints are `Int`, and the
Python `%` on a positive modulus is `Int.emod`. -/
def should_step (batch_idx accumulation_steps train_batches_per_epoch : Int) : Bool :=
  if accumulation_steps ≤ 1 then true
  else if batch_idx > 0 && (batch_idx + 1) % accumulation_steps == 0 then true
  else if batch_idx ≥ train_batches_per_epoch - 1 then true
  else false

/-- The externally visible actions of one training batch body in
`train_model` (lines 111-123), in program order. -/
inductive BatchEvent where
  | backward
  | clipGrad
  | optimizerStep
  | zeroGrad
  | oneCycleSchedStep
deriving Repr, DecidableEq

/-- One training batch body of `train_model`: backward, then
`clip_grad_norm_(..., error_if_nonfinite=True)` — which raises when the
gradient norm is not finite (its documented contract, matching the spec)
— then, only when `should_step` holds, `optimizer.step()`,
`optimizer.zero_grad()`, and a one cycle scheduler step.  The raised
error propagates: `train_model` has no handler, so the run aborts. -/
def runTrainBatch (gradNormFinite : Bool) (batch_idx accumulation_steps
    train_batches_per_epoch : Int) (schedulerIsOneCycle : Bool) :
    Except String (List BatchEvent) :=
  let pre := [BatchEvent.backward]
  if !gradNormFinite then .error "The total norm for gradients is non-finite"
  else
    let pre := pre ++ [BatchEvent.clipGrad]
    if should_step batch_idx accumulation_steps train_batches_per_epoch then
      .ok (pre ++ [BatchEvent.optimizerStep, BatchEvent.zeroGrad] ++
        (if schedulerIsOneCycle then [BatchEvent.oneCycleSchedStep] else []))
    else .ok pre

/-- Checkpoint tags used by `train_model`: `save_checkpoint(..., "best")`
on improvement, `save_checkpoint(epoch, ...)` (tagged by its epoch
number) on the fixed interval. -/
inductive CheckpointTag where
  | best
  | byEpoch (epoch : Nat)
deriving Repr, DecidableEq

/-- The end of epoch checkpoint decision of `train_model` (lines
215-235): save tagged "best" when `total_eval_loss <
hparam_config.best_loss` *and* `trial is None` (updating the best loss),
then save tagged by the epoch number when
`epoch % hparam_config.checkpt_save_interval == 0` *and* `trial is
None`.  Returns the saves performed, in order, and the updated best
loss. -/
def epochCheckpointActions (totalEvalLoss bestLoss : ℚ) (epoch interval : Nat)
    (inTrial : Bool) : List CheckpointTag × ℚ :=
  let first :=
    if totalEvalLoss < bestLoss ∧ inTrial = false then
      ([CheckpointTag.best], totalEvalLoss)
    else ([], bestLoss)
  let second :=
    if epoch % interval = 0 ∧ inTrial = false then [CheckpointTag.byEpoch epoch]
    else []
  (first.1 ++ second, first.2)

/-- C2 counterexample: for a record with 2 real nodes and 1 real edge the
claim predicts 1 + 2 = 3 augmented edges, but `process` builds
`[(0,0),(0,1),(0,2)] ++ [(0,1)]`, 4 edges: the synthetic block built
from the *augmented* row count also links the super node to itself. -/
theorem augment_edge_count_counterexample :
    ¬ ((augment ⟨2, [(0,1)], 1⟩).edgeIndex.length =
       (⟨2, [(0,1)], 1⟩ : PygData).edgeIndex.length + (⟨2, [(0,1)], 1⟩ : PygData).xRows) := by
  decide

/-- C2 (amended): after super node augmentation of a record with `N` real
nodes and `E` real edges, the node count is `N + 1` and the edge count is
`E + N + 1`: the synthetic block is `[(0, i) for i in range(N + 1)]`,
linking super node 0 to every augmented node, itself included. -/
theorem augment_counts (d : PygData) :
    (augment d).xRows = d.xRows + 1 ∧
    (augment d).edgeIndex.length = d.edgeIndex.length + d.xRows + 1 ∧
    (augment d).edgeIndex =
      ((List.range (d.xRows + 1)).map (fun i => (0, i))) ++ d.edgeIndex := by
  refine ⟨rfl, ?_, rfl⟩
  simp [augment]
  omega

/-- C3: a record conversion returns data exactly when the edge feature
table and the path table satisfy
`max(edge_path_indices) == edge_feature_row_count - 1`; on a violation it
returns the raised assertion error and no data, so nothing is padded and
nothing is deferred to training time. -/
theorem processRecord_invariant (d : PygData) (extraRows : Nat) (vals : List Int) :
    ((∃ out, processRecord d extraRows vals = .ok out) ↔
      maxOf vals = (1 + d.edgeAttrRows + extraRows : Int) - 1) ∧
    (∀ out, processRecord d extraRows vals = .ok out →
      out.1.edgeAttrRows = 1 + d.edgeAttrRows + extraRows ∧
      maxOf out.2 = (out.1.edgeAttrRows : Int) - 1 ∧ out.2 = vals) ∧
    (maxOf vals ≠ (1 + d.edgeAttrRows + extraRows : Int) - 1 →
      processRecord d extraRows vals = .error "Missing edge attrs for graph!") := by
  have hcast : (((1 + d.edgeAttrRows + extraRows : Nat) : Int) - 1) =
      (1 + d.edgeAttrRows + extraRows : Int) - 1 := by push_cast; ring
  unfold processRecord
  rw [hcast]
  by_cases h : ((1 + d.edgeAttrRows + extraRows : Int) - 1 = maxOf vals)
  · rw [if_pos h]
    refine ⟨⟨fun _ => h.symm, fun _ => ⟨_, rfl⟩⟩, ?_, fun hne => absurd h.symm hne⟩
    intro out hout
    cases hout
    exact ⟨rfl, by rw [← h, hcast], rfl⟩
  · rw [if_neg h]
    refine ⟨⟨?_, fun he => absurd he.symm h⟩, ?_, fun _ => rfl⟩
    · rintro ⟨out, hout⟩
      cases hout
    · intro out hout
      cases hout

/-- C3 witness: a consistent concrete record converts, and its tables
satisfy the invariant. -/
theorem processRecord_invariant_witness :
    ((∃ out, processRecord ⟨2, [(0,1)], 1⟩ 1 [0, 2] = .ok out) ↔
      maxOf [0, 2] = (1 + 1 + 1 : Int) - 1) ∧
    (∀ out, processRecord ⟨2, [(0,1)], 1⟩ 1 [0, 2] = .ok out →
      out.1.edgeAttrRows = 1 + 1 + 1 ∧
      maxOf out.2 = (out.1.edgeAttrRows : Int) - 1 ∧ out.2 = [0, 2]) ∧
    (maxOf [0, 2] ≠ (1 + 1 + 1 : Int) - 1 →
      processRecord ⟨2, [(0,1)], 1⟩ 1 [0, 2] = .error "Missing edge attrs for graph!") :=
  processRecord_invariant ⟨2, [(0,1)], 1⟩ 1 [0, 2]

/-- C4: `should_step` holds exactly when `accumulation_steps <= 1`, or
`(batch_index + 1) % accumulation_steps == 0`, or the batch is the last
of the epoch; in particular `should_step 2 4 10` is false,
`should_step 3 4 10` and `should_step 9 4 10` are true.  (The extra
`batch_idx > 0` guard in the source never changes the result: for
`accumulation_steps >= 2`, `(0 + 1) % accumulation_steps` is never 0.) -/
theorem should_step_characterization (b a n : Int) (hb : 0 ≤ b) (hbn : b < n) :
    (should_step b a n = true ↔ (a ≤ 1 ∨ (b + 1) % a = 0 ∨ b = n - 1)) ∧
    should_step 2 4 10 = false ∧ should_step 3 4 10 = true ∧
    should_step 9 4 10 = true := by
  refine ⟨?_, by decide, by decide, by decide⟩
  unfold should_step
  by_cases h1 : a ≤ 1
  · simp [h1]
  · rw [if_neg h1]
    by_cases h2 : b > 0 && (b + 1) % a == 0
    · rw [if_pos h2]
      simp only [Bool.and_eq_true, beq_iff_eq, decide_eq_true_eq] at h2
      simp [h2.2]
    · rw [if_neg h2]
      simp only [Bool.and_eq_true, beq_iff_eq, decide_eq_true_eq, not_and] at h2
      by_cases h3 : b ≥ n - 1
      · have hb' : b = n - 1 := by omega
        simp [h3, hb']
      · rw [if_neg h3]
        simp only [Bool.false_eq_true, false_iff]
        push_neg at h3
        rintro (ha | hmod | hlast)
        · exact h1 ha
        · rcases lt_or_eq_of_le hb with hb0 | hb0
          · exact absurd hmod (h2 hb0)
          · rw [← hb0] at hmod
            rw [Int.emod_eq_of_lt (by omega) (by omega)] at hmod
            omega
        · omega

/-- C4 witness: the characterization applied at the concrete spec
inputs. -/
theorem should_step_characterization_witness :
    (should_step 3 4 10 = true ↔ ((4:Int) ≤ 1 ∨ ((3:Int) + 1) % 4 = 0 ∨ (3:Int) = 10 - 1)) ∧
    should_step 2 4 10 = false ∧ should_step 3 4 10 = true ∧
    should_step 9 4 10 = true :=
  should_step_characterization 3 4 10 (by decide) (by decide)

/-- C8 counterexample: inside a hyperparameter search trial
(`trial is not None`), the evaluation loss 0 strictly improves on the
best loss 1, yet no checkpoint at all is persisted at the end of the
epoch, contradicting the claim as stated. -/
theorem epochCheckpoint_counterexample :
    (0 : ℚ) < 1 ∧ (epochCheckpointActions 0 1 1 5 true).1 = [] := by
  constructor
  · norm_num
  · rfl

/-- C8 (amended): when the run is not inside a search trial, a "best"
checkpoint is persisted at the end of an epoch exactly when the total
evaluation loss strictly improves on the best seen so far (which is then
updated), and an epoch numbered checkpoint is persisted exactly when the
epoch index is on the fixed interval, regardless of improvement; inside
a search trial nothing is persisted. -/
theorem epochCheckpoint_saves (loss best : ℚ) (epoch interval : Nat) :
    (CheckpointTag.best ∈ (epochCheckpointActions loss best epoch interval false).1 ↔
      loss < best) ∧
    (CheckpointTag.byEpoch epoch ∈ (epochCheckpointActions loss best epoch interval false).1 ↔
      epoch % interval = 0) ∧
    (loss < best → (epochCheckpointActions loss best epoch interval false).2 = loss) ∧
    (¬ loss < best → (epochCheckpointActions loss best epoch interval false).2 = best) ∧
    (∀ tag ∈ (epochCheckpointActions loss best epoch interval true).1, False) := by
  unfold epochCheckpointActions
  by_cases h1 : loss < best
  · by_cases h2 : epoch % interval = 0 <;>
      simp [h1, h2]
  · by_cases h2 : epoch % interval = 0 <;>
      simp [h1, h2]

/-- C8 witness: the amended checkpoint behavior at a concrete state: an
improving loss out of trial saves "best", epoch 4 with interval 2 saves
the periodic checkpoint. -/
theorem epochCheckpoint_saves_witness :
    (CheckpointTag.best ∈ (epochCheckpointActions 0 1 4 2 false).1 ↔ (0:ℚ) < 1) ∧
    (CheckpointTag.byEpoch 4 ∈ (epochCheckpointActions 0 1 4 2 false).1 ↔ 4 % 2 = 0) ∧
    ((0:ℚ) < 1 → (epochCheckpointActions 0 1 4 2 false).2 = 0) ∧
    (¬ (0:ℚ) < 1 → (epochCheckpointActions 0 1 4 2 false).2 = 1) ∧
    (∀ tag ∈ (epochCheckpointActions 0 1 4 2 true).1, False) :=
  epochCheckpoint_saves 0 1 4 2

/-- C9: in every training batch the gradient clipping runs before any
optimizer step; a non finite gradient norm makes the batch body raise
(the run aborts with no optimizer step), and with a finite norm the
optimizer step happens exactly when `should_step` holds — it is never
silently skipped and training never proceeds past a non finite norm. -/
theorem runTrainBatch_clip_before_step (fin : Bool) (b a n : Int) (oc : Bool) :
    (fin = false →
      runTrainBatch fin b a n oc =
        .error "The total norm for gradients is non-finite") ∧
    (∀ tr, runTrainBatch fin b a n oc = .ok tr →
      fin = true ∧
      tr.take 2 = [BatchEvent.backward, BatchEvent.clipGrad] ∧
      (BatchEvent.optimizerStep ∈ tr ↔ should_step b a n = true) ∧
      (should_step b a n = true →
        tr = [BatchEvent.backward, BatchEvent.clipGrad, BatchEvent.optimizerStep,
              BatchEvent.zeroGrad] ++
          (if oc then [BatchEvent.oneCycleSchedStep] else [])) ∧
      (should_step b a n = false → tr = [BatchEvent.backward, BatchEvent.clipGrad])) := by
  unfold runTrainBatch
  cases fin with
  | false =>
    refine ⟨fun _ => rfl, ?_⟩
    intro tr htr
    simp at htr
  | true =>
    refine ⟨?_, ?_⟩
    · intro h
      exact absurd h (by decide)
    intro tr htr
    simp only [Bool.not_true, Bool.false_eq_true, if_false] at htr
    by_cases hs : should_step b a n = true
    · rw [if_pos hs] at htr
      injection htr with htr
      subst htr
      refine ⟨rfl, rfl, ?_, fun _ => rfl, ?_⟩
      · constructor
        · intro _; exact hs
        · intro _
          cases oc <;> simp
      · intro hf
        rw [hs] at hf
        cases hf
    · rw [if_neg hs] at htr
      injection htr with htr
      subst htr
      have hs' : should_step b a n = false := by
        cases hss : should_step b a n
        · rfl
        · exact absurd hss hs
      refine ⟨rfl, rfl, ?_, fun ht => absurd ht hs, fun _ => rfl⟩
      simp [hs']

/-- C9 witness: a concrete batch with a finite gradient norm on a step
boundary, with the clip event preceding the optimizer step. -/
theorem runTrainBatch_clip_before_step_witness :
    ((true : Bool) = false →
      runTrainBatch true 3 4 10 false =
        .error "The total norm for gradients is non-finite") ∧
    (∀ tr, runTrainBatch true 3 4 10 false = .ok tr →
      (true : Bool) = true ∧
      tr.take 2 = [BatchEvent.backward, BatchEvent.clipGrad] ∧
      (BatchEvent.optimizerStep ∈ tr ↔ should_step 3 4 10 = true) ∧
      (should_step 3 4 10 = true →
        tr = [BatchEvent.backward, BatchEvent.clipGrad, BatchEvent.optimizerStep,
              BatchEvent.zeroGrad] ++
          (if false then [BatchEvent.oneCycleSchedStep] else [])) ∧
      (should_step 3 4 10 = false → tr = [BatchEvent.backward, BatchEvent.clipGrad])) :=
  runTrainBatch_clip_before_step true 3 4 10 false

/-! ### Association list lemmas -/

theorem containsD_iff {α : Type} (l : List (Nat × α)) (k : Nat) :
    containsD l k = true ↔ k ∈ keysD l := by
  unfold containsD keysD
  induction l with
  | nil => simp
  | cons p rest ih =>
    simp only [List.any_cons, List.map_cons, List.mem_cons, Bool.or_eq_true, beq_iff_eq]
    rw [← ih]
    constructor
    · rintro (h | h)
      · exact Or.inl h.symm
      · exact Or.inr h
    · rintro (h | h)
      · exact Or.inl h.symm
      · exact Or.inr h

theorem lookupD_eq_none {α : Type} (l : List (Nat × α)) (k : Nat) :
    lookupD l k = none ↔ k ∉ keysD l := by
  unfold lookupD keysD
  induction l with
  | nil => simp
  | cons p rest ih =>
    by_cases hp : p.1 = k
    · have hb : (p.1 == k) = true := beq_iff_eq.mpr hp
      simp [List.find?, hb, hp]
    · have hb : (p.1 == k) = false := by
        cases hq : (p.1 == k)
        · rfl
        · exact absurd (beq_iff_eq.mp hq) hp
      simp only [List.find?, hb, List.map_cons, List.mem_cons]
      rw [ih]
      constructor
      · intro h hmem
        rcases hmem with h1 | h1
        · exact hp h1.symm
        · exact h h1
      · intro h h1
        exact h (Or.inr h1)

theorem lookupD_isSome {α : Type} (l : List (Nat × α)) (k : Nat) :
    (∃ v, lookupD l k = some v) ↔ k ∈ keysD l := by
  constructor
  · rintro ⟨v, hv⟩
    by_contra hk
    rw [← lookupD_eq_none] at hk
    rw [hv] at hk
    cases hk
  · intro hk
    cases hv : lookupD l k with
    | none => exact absurd ((lookupD_eq_none l k).mp hv) (by simp [hk])
    | some v => exact ⟨v, rfl⟩

theorem lookupD_append {α : Type} (l₁ l₂ : List (Nat × α)) (k : Nat) :
    lookupD (l₁ ++ l₂) k =
      match lookupD l₁ k with
      | some v => some v
      | none => lookupD l₂ k := by
  unfold lookupD
  rw [List.find?_append]
  cases h : List.find? (fun p => p.1 == k) l₁ <;> simp [Option.or]

theorem lookupD_append_left {α : Type} {l₁ : List (Nat × α)} (l₂ : List (Nat × α))
    {k : Nat} (h : k ∈ keysD l₁) : lookupD (l₁ ++ l₂) k = lookupD l₁ k := by
  rw [lookupD_append]
  obtain ⟨v, hv⟩ := (lookupD_isSome l₁ k).mpr h
  rw [hv]

theorem lookupD_append_right {α : Type} {l₁ : List (Nat × α)} (l₂ : List (Nat × α))
    {k : Nat} (h : k ∉ keysD l₁) : lookupD (l₁ ++ l₂) k = lookupD l₂ k := by
  rw [lookupD_append]
  rw [(lookupD_eq_none l₁ k).mpr h]

theorem lookupD_singleton {α : Type} (k : Nat) (v : α) (x : Nat) :
    lookupD [(k, v)] x = if x = k then some v else none := by
  unfold lookupD
  by_cases h : x = k
  · subst h
    simp [List.find?]
  · have hb : (k == x) = false := by
      cases hq : (k == x)
      · rfl
      · exact absurd (beq_iff_eq.mp hq).symm h
    simp [List.find?, hb, h]

theorem keysD_append {α : Type} (l₁ l₂ : List (Nat × α)) :
    keysD (l₁ ++ l₂) = keysD l₁ ++ keysD l₂ := by
  unfold keysD; simp

theorem insertD_fresh {α : Type} {l : List (Nat × α)} {k : Nat} (v : α)
    (h : k ∉ keysD l) : insertD l k v = l ++ [(k, v)] := by
  unfold insertD
  rw [if_neg]
  intro hc
  exact h ((containsD_iff l k).mp hc)

theorem lookupD_map_replace_ne {α : Type} (l : List (Nat × α)) (k : Nat) (v : α)
    {x : Nat} (hx : x ≠ k) :
    lookupD (l.map (fun p => if p.1 == k then (k, v) else p)) x = lookupD l x := by
  induction l with
  | nil => rfl
  | cons p rest ih =>
    have hkx : (k == x) = false := by
      cases hq : (k == x)
      · rfl
      · exact absurd (beq_iff_eq.mp hq).symm hx
    by_cases hp : p.1 = k
    · have hb : (p.1 == k) = true := beq_iff_eq.mpr hp
      have hpx : (p.1 == x) = false := by rw [hp]; exact hkx
      unfold lookupD
      simp only [List.map_cons, hb, if_true, List.find?, hkx, hpx]
      exact ih
    · have hb : (p.1 == k) = false := by
        cases hq : (p.1 == k)
        · rfl
        · exact absurd (beq_iff_eq.mp hq) hp
      unfold lookupD
      simp only [List.map_cons, hb, Bool.false_eq_true, if_false, List.find?]
      cases hpx : (p.1 == x)
      · exact ih
      · rfl

theorem lookupD_map_replace_eq {α : Type} (l : List (Nat × α)) (k : Nat) (v : α)
    (hc : containsD l k = true) :
    lookupD (l.map (fun p => if p.1 == k then (k, v) else p)) k = some v := by
  induction l with
  | nil => cases hc
  | cons p rest ih =>
    by_cases hp : p.1 = k
    · have hb : (p.1 == k) = true := beq_iff_eq.mpr hp
      unfold lookupD
      simp only [List.map_cons, hb, if_true, List.find?, beq_self_eq_true]
      rfl
    · have hb : (p.1 == k) = false := by
        cases hq : (p.1 == k)
        · rfl
        · exact absurd (beq_iff_eq.mp hq) hp
      unfold lookupD
      simp only [List.map_cons, hb, Bool.false_eq_true, if_false, List.find?, hb]
      apply ih
      unfold containsD at hc
      simp only [List.any_cons, hb, Bool.false_or] at hc
      exact hc

theorem lookupD_insertD {α : Type} (l : List (Nat × α)) (k : Nat) (v : α) (x : Nat) :
    lookupD (insertD l k v) x = if x = k then some v else lookupD l x := by
  unfold insertD
  by_cases hc : containsD l k
  · rw [if_pos hc]
    by_cases hx : x = k
    · subst hx
      rw [if_pos rfl]
      exact lookupD_map_replace_eq l x v hc
    · rw [if_neg hx]
      exact lookupD_map_replace_ne l k v hx
  · rw [if_neg hc]
    have hk : k ∉ keysD l := fun hm => hc ((containsD_iff l k).mpr hm)
    by_cases hx : x = k
    · subst hx
      rw [if_pos rfl, lookupD_append_right _ hk, lookupD_singleton]
      simp
    · rw [if_neg hx, lookupD_append]
      cases hl : lookupD l x with
      | some w => rfl
      | none =>
        rw [lookupD_singleton, if_neg hx]

/-! ### Walks and hop count distance in the embedded graph -/

/-- A BFS walk in `G` from `s`: the node sequence of a directed walk
following the adjacency `G.adj`, recorded source first. -/
inductive Walk (G : Graph) (s : Nat) : Nat → List Nat → Prop
  | base : Walk G s s [s]
  | step {v w : Nat} {p : List Nat} : Walk G s v p → w ∈ G.adj v → Walk G s w (p ++ [w])

theorem walk_length_pos {G : Graph} {s t : Nat} {p : List Nat} (h : Walk G s t p) :
    1 ≤ p.length := by
  cases h with
  | base => simp
  | step h hw => simp

theorem walk_concat {G : Graph} {s t : Nat} {p : List Nat} (h : Walk G s t p) :
    ∃ q, p = q ++ [t] := by
  cases h with
  | base => exact ⟨[], rfl⟩
  | step h hw => exact ⟨_, rfl⟩

theorem walk_length_one {G : Graph} {s t : Nat} {p : List Nat} (h : Walk G s t p)
    (hl : p.length = 1) : t = s ∧ p = [s] := by
  cases h with
  | base => exact ⟨rfl, rfl⟩
  | step h hw =>
    exfalso
    have h1 := walk_length_pos h
    simp at hl
    subst hl
    simp at h1

theorem adj_mem_targets {G : Graph} {v w : Nat} (h : w ∈ G.adj v) :
    w ∈ G.edges.map Prod.snd := by
  unfold Graph.adj at h
  have h1 := List.dedup_subset _ h
  rcases List.mem_map.mp h1 with ⟨e, he, hes⟩
  exact List.mem_map.mpr ⟨e, List.mem_of_mem_filter he, hes⟩

theorem walk_mem {G : Graph} {s t : Nat} {p : List Nat} (h : Walk G s t p) :
    ∀ x ∈ p, x = s ∨ x ∈ G.edges.map Prod.snd := by
  induction h with
  | base =>
    intro x hx
    simp at hx
    exact Or.inl hx
  | step h hw ih =>
    intro x hx
    rcases List.mem_append.mp hx with h1 | h1
    · exact ih x h1
    · simp at h1
      subst h1
      exact Or.inr (adj_mem_targets hw)

/-- `distEq G s t d`: the hop count distance from `s` to `t` is exactly
`d` — attained by a walk of `d + 1` nodes, and minimal. -/
def distEq (G : Graph) (s t d : Nat) : Prop :=
  (∃ p, Walk G s t p ∧ p.length = d + 1) ∧ ∀ q, Walk G s t q → d + 1 ≤ q.length

theorem distEq_unique {G : Graph} {s t d d' : Nat} (h : distEq G s t d)
    (h' : distEq G s t d') : d = d' := by
  obtain ⟨⟨p, hp, hl⟩, hmin⟩ := h
  obtain ⟨⟨p', hp', hl'⟩, hmin'⟩ := h'
  have h1 := hmin p' hp'
  have h2 := hmin' p hp
  omega

theorem distEq_self (G : Graph) (s : Nat) : distEq G s s 0 :=
  ⟨⟨[s], Walk.base, rfl⟩, fun _ hq => walk_length_pos hq⟩

theorem distEq_zero {G : Graph} {s t : Nat} (h : distEq G s t 0) : t = s := by
  obtain ⟨⟨p, hp, hl⟩, _⟩ := h
  exact (walk_length_one hp hl).1

/-- Every reachable target has an exact distance, below any witnessing
walk. -/
theorem distEq_exists {G : Graph} {s : Nat} :
    ∀ n {t p}, Walk G s t p → p.length = n → ∃ d, distEq G s t d ∧ d + 1 ≤ n := by
  intro n
  induction n using Nat.strong_induction_on with
  | _ n ih =>
    intro t p hp hl
    by_cases hmin : ∀ q, Walk G s t q → n ≤ q.length
    · have hn : 1 ≤ n := hl ▸ walk_length_pos hp
      refine ⟨n - 1, ⟨⟨p, hp, by omega⟩, ?_⟩, by omega⟩
      intro q hq
      have := hmin q hq
      omega
    · push_neg at hmin
      obtain ⟨q, hq, hql⟩ := hmin
      obtain ⟨d, hd, hdl⟩ := ih q.length (by omega) hq rfl
      exact ⟨d, hd, by omega⟩

theorem walk_step_inv {G : Graph} {s t : Nat} {p : List Nat} (h : Walk G s t p)
    (hl : 2 ≤ p.length) : ∃ v q, Walk G s v q ∧ t ∈ G.adj v ∧ p = q ++ [t] := by
  cases h with
  | base => simp at hl
  | step h hw => exact ⟨_, _, h, hw, rfl⟩

/-- Level connectivity: a node at distance `d + 1` has a predecessor at
distance exactly `d`. -/
theorem distEq_pred {G : Graph} {s t d : Nat} (h : distEq G s t (d + 1)) :
    ∃ u, distEq G s u d ∧ t ∈ G.adj u := by
  obtain ⟨⟨p, hp, hl⟩, hmin⟩ := h
  obtain ⟨v, q, hq, hadj, hpe⟩ := walk_step_inv hp (by omega)
  subst hpe
  simp only [List.length_append, List.length_cons, List.length_nil] at hl
  refine ⟨v, ⟨⟨q, hq, by omega⟩, ?_⟩, hadj⟩
  intro q' hq'
  have hW : Walk G s t (q' ++ [t]) := Walk.step hq' hadj
  have h2 := hmin _ hW
  simp only [List.length_append, List.length_cons, List.length_nil] at h2
  omega

/-- Every level below an attained distance is attained. -/
theorem distEq_realized {G : Graph} {s : Nat} :
    ∀ d {t}, distEq G s t d → ∀ j, j ≤ d → ∃ u, distEq G s u j := by
  intro d
  induction d with
  | zero =>
    intro t h j hj
    interval_cases j
    exact ⟨t, h⟩
  | succ d ih =>
    intro t h j hj
    by_cases hje : j = d + 1
    · exact ⟨t, hje ▸ h⟩
    · obtain ⟨u, hu, _⟩ := distEq_pred h
      exact ih hu j (by omega)

/-- Hop count distances are bounded by the edge count: the walk nodes at
distances `1..d` are distinct edge targets. -/
theorem distEq_le_edges {G : Graph} {s t d : Nat} (h : distEq G s t d) :
    d ≤ G.edges.length := by
  have key : ∀ d {t}, distEq G s t d →
      ∃ l : List Nat, l.length = d ∧ l.Nodup ∧
        (∀ x ∈ l, x ∈ G.edges.map Prod.snd) ∧
        (∀ x ∈ l, ∃ j, 1 ≤ j ∧ j ≤ d ∧ distEq G s x j) := by
    intro d
    induction d with
    | zero => exact fun _ => ⟨[], rfl, List.nodup_nil, by simp, by simp⟩
    | succ d ih =>
      intro t ht
      obtain ⟨u, hu, hadj⟩ := distEq_pred ht
      obtain ⟨l, hlen, hnodup, htgt, hdists⟩ := ih hu
      refine ⟨t :: l, by simp [hlen], ?_, ?_, ?_⟩
      · refine List.nodup_cons.mpr ⟨?_, hnodup⟩
        intro hmem
        obtain ⟨j, hj1, hjd, hjdist⟩ := hdists t hmem
        have := distEq_unique ht hjdist
        omega
      · intro x hx
        rcases List.mem_cons.mp hx with h1 | h1
        · subst h1
          exact adj_mem_targets hadj
        · exact htgt x h1
      · intro x hx
        rcases List.mem_cons.mp hx with h1 | h1
        · subst h1
          exact ⟨d + 1, by omega, le_refl _, ht⟩
        · obtain ⟨j, hj1, hjd, hjdist⟩ := hdists x h1
          exact ⟨j, hj1, by omega, hjdist⟩
  obtain ⟨l, hlen, hnodup, htgt, _⟩ := key d h
  have hsub : l ⊆ G.edges.map Prod.snd := fun x hx => htgt x hx
  have := (hnodup.subperm hsub).length_le
  simp at this
  omega

/-! ### Edge paths of node paths -/

/-- The edge index sequence of a node path: one `edges[(a, b)]` entry per
consecutive node pair. -/
def edgesOfPath (G : Graph) : List Nat → List Nat
  | a :: b :: rest => G.edgeIdx a b :: edgesOfPath G (b :: rest)
  | _ => []

theorem edgesOfPath_length (G : Graph) :
    ∀ p : List Nat, (edgesOfPath G p).length = p.length - 1 := by
  intro p
  match p with
  | [] => rfl
  | [a] => rfl
  | a :: b :: rest =>
    have ih := edgesOfPath_length G (b :: rest)
    simp only [edgesOfPath, List.length_cons] at *
    omega

theorem edgesOfPath_append (G : Graph) :
    ∀ (p : List Nat) (v w : Nat) (hne : p ≠ []), p.getLast hne = v →
      edgesOfPath G (p ++ [w]) = edgesOfPath G p ++ [G.edgeIdx v w] := by
  intro p
  match p with
  | [] => intro v w hne _; exact absurd rfl hne
  | [a] =>
    intro v w hne hlast
    simp at hlast
    subst hlast
    rfl
  | a :: b :: rest =>
    intro v w hne hlast
    have hbr : (b :: rest) ≠ [] := by simp
    have hlast2 : (b :: rest).getLast hbr = v := by
      rw [← hlast]
      exact (List.getLast_cons hbr).symm
    have ih := edgesOfPath_append G (b :: rest) v w hbr hlast2
    have h2 : (a :: b :: rest) ++ [w] = a :: ((b :: rest) ++ [w]) := by simp
    rw [h2]
    show G.edgeIdx a b :: edgesOfPath G ((b :: rest) ++ [w]) = _
    rw [ih]
    rfl

theorem lastTwoIdx_append (G : Graph) (p : List Nat) (v w : Nat) (hne : p ≠ [])
    (hlast : p.getLast hne = v) : lastTwoIdx G (p ++ [w]) = G.edgeIdx v w := by
  have hp : p.dropLast ++ [v] = p := by
    rw [← hlast]
    exact List.dropLast_append_getLast hne
  rw [← hp]
  unfold lastTwoIdx
  have hr : (p.dropLast ++ [v] ++ [w]).reverse = w :: v :: p.dropLast.reverse := by
    simp
  rw [hr]

/-! ### The BFS level invariant -/

theorem lookupD_mem_keys {α : Type} {l : List (Nat × α)} {t : Nat} {p : α}
    (h : lookupD l t = some p) : t ∈ keysD l :=
  (lookupD_isSome l t).mp ⟨p, h⟩

/-- The iteration pairs of one level: `(v, w)` for `v` in frontier order
and `w` in adjacency order. -/
def levelPairs (G : Graph) (frontier : List Nat) : List (Nat × Nat) :=
  frontier.flatMap (fun v => (G.adj v).map (fun w => (v, w)))

def visitPair (G : Graph) (acc : PathState × List Nat) (pr : Nat × Nat) :
    PathState × List Nat :=
  visitNeighbor G pr.1 acc pr.2

theorem processLevel_eq_pairs (G : Graph) (frontier : List Nat) (st : PathState) :
    processLevel G frontier st = (levelPairs G frontier).foldl (visitPair G) (st, []) := by
  unfold processLevel levelPairs
  suffices h : ∀ init : PathState × List Nat,
      frontier.foldl (fun acc v => (G.adj v).foldl (visitNeighbor G v) acc) init
        = (frontier.flatMap fun v => (G.adj v).map (fun w => (v, w))).foldl
            (visitPair G) init by
    exact h (st, [])
  induction frontier with
  | nil => intro init; rfl
  | cons v vs ih =>
    intro init
    simp only [List.foldl_cons, List.flatMap_cons, List.foldl_append]
    rw [List.foldl_map]
    exact ih _

/-- The invariant after `k` completed levels of the BFS from `s`:
`node_paths` holds shortest paths of every node within distance `k`,
`edge_paths` mirrors it, and the frontier is exactly the distance `k`
level. -/
structure BfsInv (G : Graph) (s k : Nat) (st : PathState) (frontier : List Nat) : Prop where
  nodupKeys : (keysD st.np).Nodup
  self_np : lookupD st.np s = some [s]
  self_ep : lookupD st.ep s = some []
  sound : ∀ t p, lookupD st.np t = some p →
    Walk G s t p ∧ (∀ q, Walk G s t q → p.length ≤ q.length) ∧ p.length ≤ k + 1
  complete : ∀ t d, distEq G s t d → d ≤ k → t ∈ keysD st.np
  frontier_iff : ∀ t, t ∈ frontier ↔ distEq G s t k
  ep_matches : ∀ t p, lookupD st.np t = some p → lookupD st.ep t = some (edgesOfPath G p)
  keys_eq : keysD st.ep = keysD st.np
  pred : ∀ t p, lookupD st.np t = some p → t = s ∨
    ∃ v pv, t ∈ G.adj v ∧ lookupD st.np v = some pv ∧ p = pv ++ [t]

/-- Mid-level invariant while folding the iteration pairs of level
`k + 1`, relative to the state `st0` at the start of the level. -/
structure StepInv (G : Graph) (s k : Nat) (st0 : PathState) (acc : PathState × List Nat) : Prop where
  pres_np : ∀ t, t ∈ keysD st0.np → lookupD acc.1.np t = lookupD st0.np t
  nodupKeys : (keysD acc.1.np).Nodup
  keys_eq : keysD acc.1.ep = keysD acc.1.np
  new_char : ∀ t, t ∈ keysD acc.1.np → t ∈ keysD st0.np ∨ distEq G s t (k + 1)
  sound : ∀ t p, lookupD acc.1.np t = some p →
    Walk G s t p ∧ (∀ q, Walk G s t q → p.length ≤ q.length) ∧ p.length ≤ k + 2
  ep_matches : ∀ t p, lookupD acc.1.np t = some p → lookupD acc.1.ep t = some (edgesOfPath G p)
  next_iff : ∀ t, t ∈ acc.2 ↔ (t ∈ keysD acc.1.np ∧ t ∉ keysD st0.np)
  pred : ∀ t p, lookupD acc.1.np t = some p → t = s ∨
    ∃ v pv, t ∈ G.adj v ∧ lookupD acc.1.np v = some pv ∧ p = pv ++ [t]

theorem stepInv_sub_keys {G : Graph} {s k : Nat} {st0 : PathState}
    {acc : PathState × List Nat} (H : StepInv G s k st0 acc) {t : Nat}
    (ht : t ∈ keysD st0.np) : t ∈ keysD acc.1.np := by
  obtain ⟨p, hp⟩ := (lookupD_isSome st0.np t).mpr ht
  have h2 : lookupD acc.1.np t = some p := (H.pres_np t ht).trans hp
  exact lookupD_mem_keys h2

theorem stepInv_init {G : Graph} {s k : Nat} {st0 : PathState} {f0 : List Nat}
    (H0 : BfsInv G s k st0 f0) : StepInv G s k st0 (st0, []) := by
  refine ⟨fun t _ => rfl, H0.nodupKeys, H0.keys_eq, fun t ht => Or.inl ht, ?_,
    H0.ep_matches, ?_, H0.pred⟩
  · intro t p hp
    obtain ⟨h1, h2, h3⟩ := H0.sound t p hp
    exact ⟨h1, h2, by omega⟩
  · intro t
    simp

theorem getLast_append_single {α : Type} (l : List α) (a : α) (h : l ++ [a] ≠ []) :
    (l ++ [a]).getLast h = a := by
  induction l with
  | nil => rfl
  | cons x xs ih =>
    exact (List.getLast_cons (by simp)).trans (ih _)

theorem getLast_congr {α : Type} {l l' : List α} (he : l = l') (h : l ≠ [])
    (h' : l' ≠ []) : l.getLast h = l'.getLast h' := by
  subst he
  rfl

theorem stepInv_visit {G : Graph} {s k : Nat} {st0 : PathState} {f0 : List Nat}
    (H0 : BfsInv G s k st0 f0) {acc : PathState × List Nat}
    (H : StepInv G s k st0 acc) {v w : Nat} (hv : distEq G s v k) (hw : w ∈ G.adj v) :
    StepInv G s k st0 (visitNeighbor G v acc w) := by
  obtain ⟨st, next⟩ := acc
  by_cases hc : containsD st.np w = true
  · have hres : visitNeighbor G v (st, next) w = (st, next) := by
      unfold visitNeighbor
      dsimp only
      rw [if_pos hc]
    rw [hres]
    exact H
  · have hwk : w ∉ keysD st.np := fun hm => hc ((containsD_iff _ _).mpr hm)
    have hv0 : v ∈ keysD st0.np := H0.complete v k hv (le_refl k)
    obtain ⟨pv, hpv0⟩ := (lookupD_isSome st0.np v).mpr hv0
    have hpv : lookupD st.np v = some pv := (H.pres_np v hv0).trans hpv0
    obtain ⟨hwalk, hshort, hb⟩ := H.sound v pv hpv
    have hlen1 : k + 1 ≤ pv.length := hv.2 pv hwalk
    obtain ⟨q0, hq0, hq0l⟩ := hv.1
    have hlen2 : pv.length ≤ q0.length := hshort q0 hq0
    have hpvlen : pv.length = k + 1 := by omega
    have hwalkw : Walk G s w (pv ++ [w]) := Walk.step hwalk hw
    have hpwlen : (pv ++ [w]).length = k + 2 := by simp [hpvlen]
    have hw0 : w ∉ keysD st0.np := fun hm => hwk (stepInv_sub_keys H hm)
    obtain ⟨d, hd, hdle⟩ := distEq_exists (pv ++ [w]).length hwalkw rfl
    have hdk : ¬ d ≤ k := fun hdk => hw0 (H0.complete w d hd hdk)
    have hdw : d = k + 1 := by rw [hpwlen] at hdle; omega
    subst hdw
    have hshortw : ∀ q, Walk G s w q → (pv ++ [w]).length ≤ q.length := by
      intro q hq
      have := hd.2 q hq
      omega
    have hpne : pv ≠ [] := by
      intro he
      rw [he] at hpvlen
      simp at hpvlen
    have hplast : pv.getLast hpne = v := by
      obtain ⟨q1, hq1⟩ := walk_concat hwalk
      exact (getLast_congr hq1 hpne (by simp)).trans (getLast_append_single q1 v _)
    have hev : lookupD st.ep v = some (edgesOfPath G pv) := H.ep_matches v pv hpv
    have hwkep : w ∉ keysD st.ep := by rw [H.keys_eq]; exact hwk
    have hres : visitNeighbor G v (st, next) w =
        (⟨st.np ++ [(w, pv ++ [w])], st.ep ++ [(w, edgesOfPath G (pv ++ [w]))]⟩,
         next ++ [w]) := by
      unfold visitNeighbor
      dsimp only
      rw [if_neg hc]
      simp only [hpv, hev, Option.getD_some]
      rw [insertD_fresh _ hwk, insertD_fresh _ hwkep,
        lastTwoIdx_append G pv v w hpne hplast,
        ← edgesOfPath_append G pv v w hpne hplast]
    rw [hres]
    have hknp : keysD (st.np ++ [(w, pv ++ [w])]) = keysD st.np ++ [w] := by
      rw [keysD_append]; rfl
    have hkep : keysD (st.ep ++ [(w, edgesOfPath G (pv ++ [w]))]) = keysD st.ep ++ [w] := by
      rw [keysD_append]; rfl
    refine ⟨?_, ?_, ?_, ?_, ?_, ?_, ?_, ?_⟩
    · -- pres_np
      intro t ht
      have htm : t ∈ keysD st.np := stepInv_sub_keys H ht
      rw [lookupD_append_left _ htm]
      exact H.pres_np t ht
    · -- nodupKeys
      rw [hknp]
      refine H.nodupKeys.append (List.nodup_singleton w) ?_
      intro x hx hx'
      simp at hx'
      subst hx'
      exact hwk hx
    · -- keys_eq
      rw [hknp, hkep, H.keys_eq]
    · -- new_char
      intro t ht
      rw [hknp] at ht
      rcases List.mem_append.mp ht with h1 | h1
      · exact H.new_char t h1
      · simp at h1
        subst h1
        exact Or.inr hd
    · -- sound
      intro t p hp
      by_cases htm : t ∈ keysD st.np
      · rw [lookupD_append_left _ htm] at hp
        obtain ⟨h1, h2, h3⟩ := H.sound t p hp
        exact ⟨h1, h2, h3⟩
      · rw [lookupD_append_right _ htm, lookupD_singleton] at hp
        by_cases htw : t = w
        · rw [if_pos htw] at hp
          injection hp with hp
          subst htw
          subst hp
          exact ⟨hwalkw, hshortw, by omega⟩
        · rw [if_neg htw] at hp
          cases hp
    · -- ep_matches
      intro t p hp
      by_cases htm : t ∈ keysD st.np
      · rw [lookupD_append_left _ htm] at hp
        have htme : t ∈ keysD st.ep := by rw [H.keys_eq]; exact htm
        rw [lookupD_append_left _ htme]
        exact H.ep_matches t p hp
      · rw [lookupD_append_right _ htm, lookupD_singleton] at hp
        by_cases htw : t = w
        · rw [if_pos htw] at hp
          injection hp with hp
          subst htw
          subst hp
          have htme : t ∉ keysD st.ep := by rw [H.keys_eq]; exact htm
          rw [lookupD_append_right _ htme, lookupD_singleton, if_pos rfl]
        · rw [if_neg htw] at hp
          cases hp
    · -- next_iff
      intro t
      rw [hknp]
      simp only [List.mem_append, List.mem_singleton]
      constructor
      · rintro (h1 | h1)
        · obtain ⟨h2, h3⟩ := (H.next_iff t).mp h1
          exact ⟨Or.inl h2, h3⟩
        · subst h1
          exact ⟨Or.inr rfl, hw0⟩
      · rintro ⟨h1 | h1, h2⟩
        · exact Or.inl ((H.next_iff t).mpr ⟨h1, h2⟩)
        · exact Or.inr h1
    · -- pred
      intro t p hp
      by_cases htm : t ∈ keysD st.np
      · rw [lookupD_append_left _ htm] at hp
        rcases H.pred t p hp with h1 | ⟨u, pu, h1, h2, h3⟩
        · exact Or.inl h1
        · exact Or.inr ⟨u, pu, h1, by rw [lookupD_append_left _ (lookupD_mem_keys h2)]; exact h2, h3⟩
      · rw [lookupD_append_right _ htm, lookupD_singleton] at hp
        by_cases htw : t = w
        · rw [if_pos htw] at hp
          injection hp with hp
          subst htw
          subst hp
          refine Or.inr ⟨v, pv, hw, ?_, rfl⟩
          rw [lookupD_append_left _ (lookupD_mem_keys hpv)]
          exact hpv
        · rw [if_neg htw] at hp
          cases hp

theorem visit_keys_mono {G : Graph} {v : Nat} {acc : PathState × List Nat} {w t : Nat}
    (h : t ∈ keysD acc.1.np) : t ∈ keysD (visitNeighbor G v acc w).1.np := by
  obtain ⟨st, next⟩ := acc
  unfold visitNeighbor
  dsimp only
  by_cases hc : containsD st.np w = true
  · rw [if_pos hc]
    exact h
  · rw [if_neg hc]
    have hwk : w ∉ keysD st.np := fun hm => hc ((containsD_iff _ _).mpr hm)
    rw [insertD_fresh _ hwk]
    dsimp only
    rw [keysD_append]
    exact List.mem_append.mpr (Or.inl h)

theorem visit_covers {G : Graph} {v : Nat} (acc : PathState × List Nat) (w : Nat) :
    w ∈ keysD (visitNeighbor G v acc w).1.np := by
  obtain ⟨st, next⟩ := acc
  unfold visitNeighbor
  dsimp only
  by_cases hc : containsD st.np w = true
  · rw [if_pos hc]
    exact (containsD_iff _ _).mp hc
  · rw [if_neg hc]
    have hwk : w ∉ keysD st.np := fun hm => hc ((containsD_iff _ _).mpr hm)
    rw [insertD_fresh _ hwk]
    dsimp only
    rw [keysD_append]
    exact List.mem_append.mpr (Or.inr (by simp [keysD]))

theorem foldPairs_keys_mono {G : Graph} :
    ∀ (prs : List (Nat × Nat)) (acc : PathState × List Nat) (t : Nat),
      t ∈ keysD acc.1.np → t ∈ keysD ((prs.foldl (visitPair G) acc).1.np) := by
  intro prs
  induction prs with
  | nil => intro acc t h; exact h
  | cons pr rest ih =>
    intro acc t h
    exact ih _ t (visit_keys_mono h)

theorem foldPairs_inv {G : Graph} {s k : Nat} {st0 : PathState} {f0 : List Nat}
    (H0 : BfsInv G s k st0 f0) :
    ∀ (prs : List (Nat × Nat)) (acc : PathState × List Nat),
      StepInv G s k st0 acc →
      (∀ pr ∈ prs, distEq G s pr.1 k ∧ pr.2 ∈ G.adj pr.1) →
      StepInv G s k st0 (prs.foldl (visitPair G) acc) := by
  intro prs
  induction prs with
  | nil => intro acc H _; exact H
  | cons pr rest ih =>
    intro acc H hprs
    obtain ⟨h1, h2⟩ := hprs pr (List.mem_cons_self pr rest)
    exact ih _ (stepInv_visit H0 H h1 h2) (fun q hq => hprs q (List.mem_cons_of_mem pr hq))

theorem foldPairs_covers {G : Graph} :
    ∀ (prs : List (Nat × Nat)) (acc : PathState × List Nat) (pr : Nat × Nat),
      pr ∈ prs → pr.2 ∈ keysD ((prs.foldl (visitPair G) acc).1.np) := by
  intro prs
  induction prs with
  | nil => intro acc pr h; cases h
  | cons q rest ih =>
    intro acc pr h
    rcases List.mem_cons.mp h with h1 | h1
    · subst h1
      exact foldPairs_keys_mono rest _ pr.2 (visit_covers acc pr.2)
    · exact ih _ pr h1

theorem levelPairs_mem {G : Graph} {frontier : List Nat} {pr : Nat × Nat} :
    pr ∈ levelPairs G frontier ↔ pr.1 ∈ frontier ∧ pr.2 ∈ G.adj pr.1 := by
  unfold levelPairs
  constructor
  · intro h
    obtain ⟨v, hv, hm⟩ := List.mem_flatMap.mp h
    obtain ⟨w, hw, he⟩ := List.mem_map.mp hm
    subst he
    exact ⟨hv, hw⟩
  · rintro ⟨h1, h2⟩
    exact List.mem_flatMap.mpr ⟨pr.1, h1, List.mem_map.mpr ⟨pr.2, h2, rfl⟩⟩

/-- One level of the BFS turns the level `k` invariant into the level
`k + 1` invariant. -/
theorem bfsInv_step {G : Graph} {s k : Nat} {st0 : PathState} {f0 : List Nat}
    (H0 : BfsInv G s k st0 f0) :
    BfsInv G s (k + 1) (processLevel G f0 st0).1 (processLevel G f0 st0).2 := by
  rw [processLevel_eq_pairs]
  have hprs : ∀ pr ∈ levelPairs G f0, distEq G s pr.1 k ∧ pr.2 ∈ G.adj pr.1 := by
    intro pr hpr
    obtain ⟨h1, h2⟩ := levelPairs_mem.mp hpr
    exact ⟨(H0.frontier_iff pr.1).mp h1, h2⟩
  have Hfin := foldPairs_inv H0 (levelPairs G f0) (st0, []) (stepInv_init H0) hprs
  have hsub : ∀ t, t ∈ keysD st0.np →
      t ∈ keysD (((levelPairs G f0).foldl (visitPair G) (st0, [])).1.np) :=
    fun t ht => stepInv_sub_keys Hfin ht
  have hcomp1 : ∀ t, distEq G s t (k + 1) →
      t ∈ keysD (((levelPairs G f0).foldl (visitPair G) (st0, [])).1.np) := by
    intro t ht
    obtain ⟨u, hu, hadj⟩ := distEq_pred ht
    have huf : u ∈ f0 := (H0.frontier_iff u).mpr hu
    have hpr : (u, t) ∈ levelPairs G f0 := levelPairs_mem.mpr ⟨huf, hadj⟩
    exact foldPairs_covers _ _ (u, t) hpr
  have hnotold : ∀ t, distEq G s t (k + 1) → t ∉ keysD st0.np := by
    intro t ht hmem
    obtain ⟨p, hp⟩ := (lookupD_isSome st0.np t).mpr hmem
    obtain ⟨hw1, hw2, hw3⟩ := H0.sound t p hp
    have h4 := ht.2 p hw1
    omega
  refine ⟨Hfin.nodupKeys, ?_, ?_, ?_, ?_, ?_, Hfin.ep_matches, Hfin.keys_eq, Hfin.pred⟩
  · -- self_np
    have hs0 : s ∈ keysD st0.np := lookupD_mem_keys H0.self_np
    rw [Hfin.pres_np s hs0]
    exact H0.self_np
  · -- self_ep
    have hs0 : s ∈ keysD st0.np := lookupD_mem_keys H0.self_np
    have h1 : lookupD (((levelPairs G f0).foldl (visitPair G) (st0, [])).1.np) s
        = some [s] := by
      rw [Hfin.pres_np s hs0]
      exact H0.self_np
    have h2 := Hfin.ep_matches s [s] h1
    exact h2
  · -- sound
    intro t p hp
    exact Hfin.sound t p hp
  · -- complete
    intro t d hd hdk
    by_cases hle : d ≤ k
    · exact hsub t (H0.complete t d hd hle)
    · have hdk1 : d = k + 1 := by omega
      subst hdk1
      exact hcomp1 t hd
  · -- frontier_iff
    intro t
    constructor
    · intro ht
      obtain ⟨h1, h2⟩ := (Hfin.next_iff t).mp ht
      rcases Hfin.new_char t h1 with h3 | h3
      · exact absurd h3 h2
      · exact h3
    · intro ht
      exact (Hfin.next_iff t).mpr ⟨hcomp1 t ht, hnotold t ht⟩

/-- The cutoff independent part of the invariant, true of the BFS result
at any exit point of the loop. -/
structure ResultInv (G : Graph) (s : Nat) (st : PathState) : Prop where
  nodupKeys : (keysD st.np).Nodup
  self_np : lookupD st.np s = some [s]
  self_ep : lookupD st.ep s = some []
  sound : ∀ t p, lookupD st.np t = some p →
    Walk G s t p ∧ ∀ q, Walk G s t q → p.length ≤ q.length
  ep_matches : ∀ t p, lookupD st.np t = some p → lookupD st.ep t = some (edgesOfPath G p)
  keys_eq : keysD st.ep = keysD st.np
  pred : ∀ t p, lookupD st.np t = some p → t = s ∨
    ∃ v pv, t ∈ G.adj v ∧ lookupD st.np v = some pv ∧ p = pv ++ [t]

theorem bfsInv_resultInv {G : Graph} {s k : Nat} {st : PathState} {frontier : List Nat}
    (H : BfsInv G s k st frontier) : ResultInv G s st :=
  ⟨H.nodupKeys, H.self_np, H.self_ep,
   fun t p hp => ⟨(H.sound t p hp).1, (H.sound t p hp).2.1⟩, H.ep_matches, H.keys_eq, H.pred⟩

theorem bfsLoop_resultInv {G : Graph} {s : Nat} (cutoff : Option Nat) :
    ∀ (fuel k : Nat) (frontier : List Nat) (st : PathState),
      BfsInv G s k st frontier →
      ResultInv G s (bfsLoop G cutoff fuel k frontier st) := by
  intro fuel
  induction fuel with
  | zero => intro k frontier st H; exact bfsInv_resultInv H
  | succ fuel ih =>
    intro k frontier st H
    unfold bfsLoop
    by_cases hf : frontier = []
    · rw [if_pos hf]
      exact bfsInv_resultInv H
    · rw [if_neg hf]
      have Hstep := bfsInv_step H
      cases cutoff with
      | some c =>
        dsimp only
        by_cases hcc : c ≤ k + 1
        · rw [if_pos hcc]
          exact bfsInv_resultInv Hstep
        · rw [if_neg hcc]
          exact ih (k + 1) _ _ Hstep
      | none =>
        dsimp only
        exact ih (k + 1) _ _ Hstep

theorem bfsLoop_bound {G : Graph} {s c : Nat} :
    ∀ (fuel k : Nat) (frontier : List Nat) (st : PathState),
      BfsInv G s k st frontier → k < c →
      ∀ t p, lookupD (bfsLoop G (some c) fuel k frontier st).np t = some p →
        p.length ≤ c + 1 := by
  intro fuel
  induction fuel with
  | zero =>
    intro k frontier st H hk t p hp
    have h3 := (H.sound t p hp).2.2
    omega
  | succ fuel ih =>
    intro k frontier st H hk
    unfold bfsLoop
    by_cases hf : frontier = []
    · rw [if_pos hf]
      intro t p hp
      have h3 := (H.sound t p hp).2.2
      omega
    · rw [if_neg hf]
      have Hstep := bfsInv_step H
      dsimp only
      by_cases hcc : c ≤ k + 1
      · rw [if_pos hcc]
        intro t p hp
        have h3 := (Hstep.sound t p hp).2.2
        omega
      · rw [if_neg hcc]
        exact ih (k + 1) _ _ Hstep (by omega)

theorem bfsLoop_complete {G : Graph} {s : Nat} :
    ∀ (fuel k : Nat) (frontier : List Nat) (st : PathState),
      BfsInv G s k st frontier →
      ∀ t d, distEq G s t d → d ≤ k + fuel →
        t ∈ keysD (bfsLoop G none fuel k frontier st).np := by
  intro fuel
  induction fuel with
  | zero =>
    intro k frontier st H t d hd hdk
    exact H.complete t d hd (by omega)
  | succ fuel ih =>
    intro k frontier st H t d hd hdk
    unfold bfsLoop
    by_cases hf : frontier = []
    · rw [if_pos hf]
      by_cases hle : d ≤ k
      · exact H.complete t d hd hle
      · exfalso
        obtain ⟨u, hu⟩ := distEq_realized d hd k (by omega)
        have := (H.frontier_iff u).mpr hu
        rw [hf] at this
        cases this
    · rw [if_neg hf]
      have Hstep := bfsInv_step H
      dsimp only
      exact ih (k + 1) _ _ Hstep t d hd (by omega)

theorem bfsInv_init (G : Graph) (s : Nat) :
    BfsInv G s 0 ⟨[(s, [s])], [(s, [])]⟩ [s] := by
  refine ⟨?_, ?_, ?_, ?_, ?_, ?_, ?_, ?_, ?_⟩
  · simp [keysD]
  · rw [lookupD_singleton]
    simp
  · rw [lookupD_singleton]
    simp
  · intro t p hp
    rw [lookupD_singleton] at hp
    by_cases ht : t = s
    · rw [if_pos ht] at hp
      injection hp with hp
      subst ht
      subst hp
      exact ⟨Walk.base, fun q hq => walk_length_pos hq, by simp⟩
    · rw [if_neg ht] at hp
      cases hp
  · intro t d hd hd0
    interval_cases d
    have h1 := distEq_zero hd
    subst h1
    simp [keysD]
  · intro t
    simp only [List.mem_singleton]
    constructor
    · intro h
      rw [h]
      exact distEq_self G s
    · intro h
      exact distEq_zero h
  · intro t p hp
    rw [lookupD_singleton] at hp ⊢
    by_cases ht : t = s
    · rw [if_pos ht] at hp
      injection hp with hp
      subst hp
      rw [if_pos ht]
      rfl
    · rw [if_neg ht] at hp
      cases hp
  · simp [keysD]
  · intro t p hp
    rw [lookupD_singleton] at hp
    by_cases ht : t = s
    · exact Or.inl ht
    · rw [if_neg ht] at hp
      cases hp

theorem fwsD_eq {G : Graph} {s : Nat} (cutoff : Option Nat) (hs : s ∈ G.nodes) :
    fwsD G s cutoff =
      bfsLoop G cutoff (G.edges.length + 2) 0 [s] ⟨[(s, [s])], [(s, [])]⟩ := by
  unfold fwsD floyd_warshall_source_to_all
  rw [if_pos hs]

theorem fws_is_ok {G : Graph} {s : Nat} (cutoff : Option Nat) (hs : s ∈ G.nodes) :
    floyd_warshall_source_to_all G s cutoff = .ok (fwsD G s cutoff) := by
  rw [fwsD_eq cutoff hs]
  unfold floyd_warshall_source_to_all
  rw [if_pos hs]

theorem fws_not_ok {G : Graph} {s : Nat} (cutoff : Option Nat) (hs : s ∉ G.nodes) :
    floyd_warshall_source_to_all G s cutoff = .error "NodeNotFound" := by
  unfold floyd_warshall_source_to_all
  rw [if_neg hs]

theorem fwsD_resultInv {G : Graph} {s : Nat} (cutoff : Option Nat) (hs : s ∈ G.nodes) :
    ResultInv G s (fwsD G s cutoff) := by
  rw [fwsD_eq cutoff hs]
  exact bfsLoop_resultInv cutoff _ 0 [s] _ (bfsInv_init G s)

theorem fwsD_complete {G : Graph} {s : Nat} (hs : s ∈ G.nodes) :
    ∀ t d, distEq G s t d → t ∈ keysD (fwsD G s none).np := by
  intro t d hd
  rw [fwsD_eq none hs]
  refine bfsLoop_complete _ 0 [s] _ (bfsInv_init G s) t d hd ?_
  have := distEq_le_edges hd
  omega

theorem fwsD_bound {G : Graph} {s c : Nat} (hs : s ∈ G.nodes) (hc : 1 ≤ c) :
    ∀ t p, lookupD (fwsD G s (some c)).np t = some p → p.length ≤ c + 1 := by
  rw [fwsD_eq (some c) hs]
  exact bfsLoop_bound _ 0 [s] _ (bfsInv_init G s) (by omega)

/-! ### The all pairs tables -/

theorem lookupD_tableFold {α : Type} (f : Nat → α) :
    ∀ (ns : List Nat) (acc : List (Nat × α)) (x : Nat),
      lookupD (ns.foldl (fun a n => insertD a n (f n)) acc) x =
        if x ∈ ns then some (f x) else lookupD acc x := by
  intro ns
  induction ns with
  | nil => intro acc x; simp
  | cons n rest ih =>
    intro acc x
    simp only [List.foldl_cons]
    rw [ih]
    by_cases hx : x ∈ rest
    · rw [if_pos hx, if_pos (List.mem_cons_of_mem n hx)]
    · rw [if_neg hx, lookupD_insertD]
      by_cases hxn : x = n
      · rw [if_pos hxn, if_pos (by rw [hxn]; exact List.mem_cons_self n rest), hxn]
      · rw [if_neg hxn, if_neg (by simp [hxn, hx])]

theorem keysD_tableFold {α : Type} (f : Nat → α) :
    ∀ (ns : List Nat) (acc : List (Nat × α)),
      ns.Nodup → (∀ x ∈ ns, x ∉ keysD acc) →
      keysD (ns.foldl (fun a n => insertD a n (f n)) acc) = keysD acc ++ ns := by
  intro ns
  induction ns with
  | nil => intro acc _ _; simp
  | cons n rest ih =>
    intro acc hnd hfr
    simp only [List.foldl_cons]
    have hn : n ∉ keysD acc := hfr n (List.mem_cons_self n rest)
    rw [insertD_fresh _ hn]
    rw [ih (acc ++ [(n, f n)]) (List.nodup_cons.mp hnd).2 ?_]
    · rw [keysD_append]
      simp [keysD]
    · intro x hx
      rw [keysD_append]
      simp only [List.mem_append]
      rintro (h1 | h1)
      · exact hfr x (List.mem_cons_of_mem n hx) h1
      · simp [keysD] at h1
        subst h1
        exact (List.nodup_cons.mp hnd).1 hx

theorem all_pairs_lookup_np (G : Graph) (x : Nat) :
    lookupD (all_pairs_shortest_path G).1 x =
      if x ∈ G.nodes then some (fwsD G x none).np else none := by
  unfold all_pairs_shortest_path
  rw [lookupD_tableFold]
  rfl

theorem all_pairs_lookup_ep (G : Graph) (x : Nat) :
    lookupD (all_pairs_shortest_path G).2 x =
      if x ∈ G.nodes then some (fwsD G x none).ep else none := by
  unfold all_pairs_shortest_path
  rw [lookupD_tableFold]
  rfl

theorem all_pairs_keys_np (G : Graph) (h : G.nodes.Nodup) :
    keysD (all_pairs_shortest_path G).1 = G.nodes := by
  unfold all_pairs_shortest_path
  rw [keysD_tableFold _ _ _ h (by intro x _ hx; simp [keysD] at hx)]
  rfl

theorem all_pairs_keys_ep (G : Graph) (h : G.nodes.Nodup) :
    keysD (all_pairs_shortest_path G).2 = G.nodes := by
  unfold all_pairs_shortest_path
  rw [keysD_tableFold _ _ _ h (by intro x _ hx; simp [keysD] at hx)]
  rfl

/-- C7: for every graph, source `s` and cutoff, the two returned tables
have the same key set, each present destination satisfies
`len(node_paths[s][t]) = len(edge_paths[s][t]) + 1`, and the self entry
is the zero length path `node_paths[s][s] = [s]`, `edge_paths[s][s] = []`. -/
theorem node_edge_path_length_invariant (G : Graph) (s : Nat) (cutoff : Option Nat)
    (hs : s ∈ G.nodes) :
    ∃ st, floyd_warshall_source_to_all G s cutoff = .ok st ∧
      keysD st.ep = keysD st.np ∧
      (∀ t p, lookupD st.np t = some p →
        ∃ e, lookupD st.ep t = some e ∧ p.length = e.length + 1) ∧
      lookupD st.np s = some [s] ∧ lookupD st.ep s = some [] := by
  have R := fwsD_resultInv cutoff hs
  refine ⟨fwsD G s cutoff, fws_is_ok cutoff hs, R.keys_eq, ?_, R.self_np, R.self_ep⟩
  intro t p hp
  refine ⟨edgesOfPath G p, R.ep_matches t p hp, ?_⟩
  have h1 := walk_length_pos (R.sound t p hp).1
  rw [edgesOfPath_length]
  omega

/-- C7 witness: the invariant on a concrete path graph. -/
theorem node_edge_path_length_invariant_witness :
    ∃ st, floyd_warshall_source_to_all ⟨[0,1,2], [(0,1),(1,0),(1,2),(2,1)]⟩ 0 none
        = .ok st ∧
      keysD st.ep = keysD st.np ∧
      (∀ t p, lookupD st.np t = some p →
        ∃ e, lookupD st.ep t = some e ∧ p.length = e.length + 1) ∧
      lookupD st.np 0 = some [0] ∧ lookupD st.ep 0 = some [] :=
  node_edge_path_length_invariant ⟨[0,1,2], [(0,1),(1,0),(1,2),(2,1)]⟩ 0 none (by decide)

/-- C6: without a cutoff, the single source BFS returns, for every
reachable destination `t`, a path that is a hop count shortest walk from
`s` to `t`; for `t ≠ s` the returned path extends the table entry of the
neighbor `v` through which BFS first discovered `t`. -/
theorem fws_returns_shortest_paths (G : Graph) (s : Nat) (hs : s ∈ G.nodes) :
    ∃ st, floyd_warshall_source_to_all G s none = .ok st ∧
      ∀ t, (∃ q, Walk G s t q) →
        ∃ p, lookupD st.np t = some p ∧ Walk G s t p ∧
          (∀ q, Walk G s t q → p.length ≤ q.length) ∧
          (t ≠ s → ∃ v pv, t ∈ G.adj v ∧ lookupD st.np v = some pv ∧ p = pv ++ [t]) := by
  have R := fwsD_resultInv none hs
  refine ⟨fwsD G s none, fws_is_ok none hs, ?_⟩
  intro t ⟨q, hq⟩
  obtain ⟨d, hd, _⟩ := distEq_exists q.length hq rfl
  have hmem := fwsD_complete hs t d hd
  obtain ⟨p, hp⟩ := (lookupD_isSome _ t).mpr hmem
  obtain ⟨h1, h2⟩ := R.sound t p hp
  refine ⟨p, hp, h1, h2, ?_⟩
  intro hts
  rcases R.pred t p hp with h3 | h3
  · exact absurd h3 hts
  · exact h3

/-- C6 witness: a concrete graph in which node 2 is reachable from 0; the
theorem yields its shortest table entry. -/
theorem fws_returns_shortest_paths_witness :
    ∃ st, floyd_warshall_source_to_all ⟨[0,1,2], [(0,1),(1,0),(1,2),(2,1)]⟩ 0 none
        = .ok st ∧
      ∀ t, (∃ q, Walk ⟨[0,1,2], [(0,1),(1,0),(1,2),(2,1)]⟩ 0 t q) →
        ∃ p, lookupD st.np t = some p ∧ Walk ⟨[0,1,2], [(0,1),(1,0),(1,2),(2,1)]⟩ 0 t p ∧
          (∀ q, Walk ⟨[0,1,2], [(0,1),(1,0),(1,2),(2,1)]⟩ 0 t q → p.length ≤ q.length) ∧
          (t ≠ 0 → ∃ v pv, t ∈ Graph.adj ⟨[0,1,2], [(0,1),(1,0),(1,2),(2,1)]⟩ v ∧
            lookupD st.np v = some pv ∧ p = pv ++ [t]) :=
  fws_returns_shortest_paths ⟨[0,1,2], [(0,1),(1,0),(1,2),(2,1)]⟩ 0 (by decide)

/-- Modelled from the spec: the all pairs shortest path computation with
`max_distance` forwarded as the per source BFS cutoff.  The production
caller `data_cleaning.process` invokes a `shortest_path_distance(
data.edge_index, max_distance)` variant that is not present under
`src/`; per spec 4.1/4.2 it runs the `src/graphormer/functional.py` BFS
(`floyd_warshall_source_to_all`, whose cutoff handling is in the source)
from every node with the cutoff set to `max_distance`.  This wrapper is
`all_pairs_shortest_path` with that cutoff forwarded. -/
def all_pairs_shortest_path_cutoff (G : Graph) (d : Nat) :
    List (Nat × List (Nat × List Nat)) × List (Nat × List (Nat × List Nat)) :=
  (G.nodes.foldl (fun acc n => insertD acc n (fwsD G n (some d)).np) [],
   G.nodes.foldl (fun acc n => insertD acc n (fwsD G n (some d)).ep) [])

theorem all_pairs_cutoff_lookup_np (G : Graph) (d : Nat) (x : Nat) :
    lookupD (all_pairs_shortest_path_cutoff G d).1 x =
      if x ∈ G.nodes then some (fwsD G x (some d)).np else none := by
  unfold all_pairs_shortest_path_cutoff
  rw [lookupD_tableFold]
  rfl

/-- C1 counterexample: with `max_distance = 0` the BFS processes one full
level before the `cutoff <= level` check, so the pair `(0, 1)` of the two
node graph `0 ↔ 1` is present with the 2 node path `[0, 1]`, exceeding
the claimed bound of `0 + 1` nodes. -/
theorem all_pairs_cutoff_counterexample :
    (lookupD (all_pairs_shortest_path_cutoff ⟨[0, 1], [(0, 1), (1, 0)]⟩ 0).1 0).bind
        (fun tbl => lookupD tbl 1) = some [0, 1] ∧
      ¬ (([0, 1] : List Nat).length ≤ 0 + 1) := by
  constructor
  · rfl
  · decide

/-- C1 (amended): for every `max_distance = d ≥ 1`, every path in the
cutoff all pairs table has at most `d + 1` nodes and is a complete
shortest walk (nothing is truncated), and every pair whose distance
exceeds `d` is absent from the per source table. -/
theorem all_pairs_cutoff_bounded (G : Graph) (d : Nat) (hd : 1 ≤ d) (s : Nat)
    (tblN : List (Nat × List Nat))
    (htbl : lookupD (all_pairs_shortest_path_cutoff G d).1 s = some tblN) :
    (∀ t p, lookupD tblN t = some p →
      p.length ≤ d + 1 ∧ Walk G s t p ∧ ∀ q, Walk G s t q → p.length ≤ q.length) ∧
    (∀ t d', distEq G s t d' → d < d' → lookupD tblN t = none) := by
  rw [all_pairs_cutoff_lookup_np] at htbl
  by_cases hs : s ∈ G.nodes
  · rw [if_pos hs] at htbl
    injection htbl with htbl
    subst htbl
    have R := fwsD_resultInv (some d) hs
    constructor
    · intro t p hp
      exact ⟨fwsD_bound hs hd t p hp, (R.sound t p hp).1, (R.sound t p hp).2⟩
    · intro t d' hd' hdd
      cases hl : lookupD (fwsD G s (some d)).np t with
      | none => rfl
      | some p =>
        exfalso
        obtain ⟨hw, hshort⟩ := R.sound t p hl
        have h1 := hd'.2 p hw
        have h2 := fwsD_bound hs hd t p hl
        omega
  · rw [if_neg hs] at htbl
    cases htbl

/-- C1 witness: the amended bound applied on a concrete path graph with
`max_distance = 1`: only the distance 1 neighborhood of each source is
kept. -/
theorem all_pairs_cutoff_bounded_witness :
    ((∀ t p, lookupD [(0, [0]), (1, [0, 1])] t = some p →
      p.length ≤ 1 + 1 ∧ Walk ⟨[0,1,2], [(0,1),(1,0),(1,2),(2,1)]⟩ 0 t p ∧
        ∀ q, Walk ⟨[0,1,2], [(0,1),(1,0),(1,2),(2,1)]⟩ 0 t q → p.length ≤ q.length) ∧
    (∀ t d', distEq ⟨[0,1,2], [(0,1),(1,0),(1,2),(2,1)]⟩ 0 t d' → 1 < d' →
      lookupD [(0, [0]), (1, [0, 1])] t = none)) :=
  all_pairs_cutoff_bounded ⟨[0,1,2], [(0,1),(1,0),(1,2),(2,1)]⟩ 1 (by decide) 0
    [(0, [0]), (1, [0, 1])] (by rfl)

/-! ### Equivariance of the BFS under the batch node offset -/

/-- Relabeling by `+ r`, the effect of `nx.relabel_nodes` on a well
formed graph. -/
def shiftGraph (G : Graph) (r : Nat) : Graph :=
  ⟨G.nodes.map (· + r), G.edges.map (fun e => (e.1 + r, e.2 + r))⟩

theorem relabelShift_eq_shift {G : Graph} (r : Nat) (hwf : G.wellFormed) :
    relabelShift G r = shiftGraph G r := by
  obtain ⟨hnodes, hedges⟩ := hwf
  unfold relabelShift shiftGraph relabelFn
  congr 1
  · apply List.map_congr_left
    intro x hx
    rw [hnodes] at hx
    rw [if_pos (List.mem_range.mp hx)]
  · apply List.map_congr_left
    intro e he
    obtain ⟨h1, h2⟩ := hedges e he
    rw [hnodes] at h1 h2
    rw [if_pos (List.mem_range.mp h1), if_pos (List.mem_range.mp h2)]

theorem beq_add_right (a b r : Nat) : (a + r == b + r) = (a == b) := by
  by_cases h : a = b
  · subst h
    simp
  · have h1 : ¬ (a + r = b + r) := by omega
    simp [h, h1]

theorem beq_pair_shift (x y : Nat × Nat) (r : Nat) :
    ((x.1 + r, x.2 + r) == (y.1 + r, y.2 + r)) = (x == y) := by
  show (x.1 + r == y.1 + r && x.2 + r == y.2 + r) = (x.1 == y.1 && x.2 == y.2)
  rw [beq_add_right, beq_add_right]

theorem dedup_map_inj {α β : Type} [DecidableEq α] [DecidableEq β] {f : α → β}
    (hf : Function.Injective f) : ∀ l : List α, (l.map f).dedup = l.dedup.map f := by
  intro l
  induction l with
  | nil => rfl
  | cons a rest ih =>
    by_cases ha : a ∈ rest
    · rw [List.map_cons, List.dedup_cons_of_mem (List.mem_map_of_mem f ha),
        List.dedup_cons_of_mem ha, ih]
    · have hfa : f a ∉ rest.map f := by
        intro hm
        obtain ⟨b, hb, he⟩ := List.mem_map.mp hm
        rw [hf he] at hb
        exact ha hb
      rw [List.map_cons, List.dedup_cons_of_not_mem hfa,
        List.dedup_cons_of_not_mem ha, List.map_cons, ih]

theorem adj_shift (G : Graph) (r v : Nat) :
    (shiftGraph G r).adj (v + r) = (G.adj v).map (· + r) := by
  unfold Graph.adj shiftGraph
  dsimp only
  rw [List.filter_map]
  have hcond : ((fun e => e.1 == v + r) ∘ fun e : Nat × Nat => (e.1 + r, e.2 + r))
      = fun e : Nat × Nat => e.1 == v := by
    funext e
    exact beq_add_right e.1 v r
  rw [hcond, List.map_map]
  have hsnd : (Prod.snd ∘ fun e : Nat × Nat => (e.1 + r, e.2 + r))
      = (· + r) ∘ Prod.snd := by
    funext e
    rfl
  rw [hsnd, ← List.map_map]
  exact dedup_map_inj (fun a b h => by omega) _

theorem edgeEnum_shift (G : Graph) (r : Nat) :
    (shiftGraph G r).edgeEnum = G.edgeEnum.map (fun e => (e.1 + r, e.2 + r)) := by
  unfold Graph.edgeEnum
  show ((G.nodes.map (· + r)).flatMap fun u => ((shiftGraph G r).adj u).map (fun w => (u, w)))
    = _
  rw [List.flatMap_map, List.map_flatMap]
  congr 1
  funext u
  rw [adj_shift, List.map_map, List.map_map]
  rfl

theorem indexOf_map_beq {α β : Type} [BEq α] [BEq β] (f : α → β)
    (hbeq : ∀ x y, (f x == f y) = (x == y)) :
    ∀ (l : List α) (a : α), (l.map f).indexOf (f a) = l.indexOf a := by
  intro l a
  induction l with
  | nil => rfl
  | cons x rest ih =>
    show ((f x :: rest.map f).indexOf (f a)) = _
    unfold List.indexOf
    rw [List.findIdx_cons, List.findIdx_cons]
    rw [hbeq x a]
    cases hx : (x == a)
    · simp only [cond_false]
      unfold List.indexOf at ih
      rw [ih]
    · rfl

theorem edgeIdx_shift (G : Graph) (r a b : Nat) :
    (shiftGraph G r).edgeIdx (a + r) (b + r) = G.edgeIdx a b := by
  unfold Graph.edgeIdx
  rw [edgeEnum_shift]
  have h := indexOf_map_beq (fun e : Nat × Nat => (e.1 + r, e.2 + r))
    (fun x y => beq_pair_shift x y r) G.edgeEnum (a, b)
  exact h

theorem lastTwoIdx_shift (G : Graph) (r : Nat) (p : List Nat) :
    lastTwoIdx (shiftGraph G r) (p.map (· + r)) = lastTwoIdx G p := by
  unfold lastTwoIdx
  rw [← List.map_reverse]
  cases hp : p.reverse with
  | nil => rfl
  | cons b tail =>
    cases tail with
    | nil => rfl
    | cons a rest =>
      show (shiftGraph G r).edgeIdx (a + r) (b + r) = G.edgeIdx a b
      exact edgeIdx_shift G r a b

/-- The image of a BFS state under the batch offset: node keys and node
path entries shift, edge path values are untouched. -/
def mapPS (r : Nat) (st : PathState) : PathState :=
  ⟨st.np.map (fun kv => (kv.1 + r, kv.2.map (· + r))),
   st.ep.map (fun kv => (kv.1 + r, kv.2))⟩

theorem lookupD_map_shift {α β : Type} (h : α → β) (r : Nat) :
    ∀ (l : List (Nat × α)) (x : Nat),
      lookupD (l.map (fun kv => (kv.1 + r, h kv.2))) (x + r) = (lookupD l x).map h := by
  intro l x
  induction l with
  | nil => rfl
  | cons kv rest ih =>
    unfold lookupD
    simp only [List.map_cons, List.find?]
    rw [beq_add_right kv.1 x r]
    cases hx : (kv.1 == x)
    · unfold lookupD at ih
      exact ih
    · rfl

theorem containsD_map_shift {α β : Type} (h : α → β) (r : Nat)
    (l : List (Nat × α)) (x : Nat) :
    containsD (l.map (fun kv => (kv.1 + r, h kv.2))) (x + r) = containsD l x := by
  induction l with
  | nil => rfl
  | cons kv rest ih =>
    unfold containsD
    simp only [List.map_cons, List.any_cons]
    rw [beq_add_right kv.1 x r]
    unfold containsD at ih
    rw [ih]

theorem insertD_map_shift {α β : Type} (h : α → β) (r : Nat)
    (l : List (Nat × α)) (x : Nat) (v : α) :
    insertD (l.map (fun kv => (kv.1 + r, h kv.2))) (x + r) (h v) =
      (insertD l x v).map (fun kv => (kv.1 + r, h kv.2)) := by
  unfold insertD
  rw [containsD_map_shift]
  by_cases hc : containsD l x = true
  · rw [if_pos hc, if_pos hc, List.map_map, List.map_map]
    apply List.map_congr_left
    intro kv _
    show (if kv.1 + r == x + r then (x + r, h v) else (kv.1 + r, h kv.2))
      = ((fun kv : Nat × α => (kv.1 + r, h kv.2)) (if kv.1 == x then (x, v) else kv))
    rw [beq_add_right kv.1 x r]
    cases hk : (kv.1 == x)
    · rfl
    · rfl
  · rw [if_neg hc, if_neg hc, List.map_append]
    rfl

theorem lookupD_map_shift_id {α : Type} (r : Nat) (l : List (Nat × α)) (x : Nat) :
    lookupD (l.map (fun kv => (kv.1 + r, kv.2))) (x + r) = lookupD l x := by
  have h := lookupD_map_shift (fun a : α => a) r l x
  simpa using h

theorem insertD_map_shift_id {α : Type} (r : Nat) (l : List (Nat × α)) (x : Nat) (v : α) :
    insertD (l.map (fun kv => (kv.1 + r, kv.2))) (x + r) v =
      (insertD l x v).map (fun kv => (kv.1 + r, kv.2)) := by
  have h := insertD_map_shift (fun a : α => a) r l x v
  simpa using h

theorem visit_shift (G : Graph) (r v w : Nat) (st : PathState) (next : List Nat) :
    visitNeighbor (shiftGraph G r) (v + r) (mapPS r st, next.map (· + r)) (w + r) =
      (mapPS r (visitNeighbor G v (st, next) w).1,
       (visitNeighbor G v (st, next) w).2.map (· + r)) := by
  have hcont : containsD (mapPS r st).np (w + r) = containsD st.np w :=
    containsD_map_shift (fun es : List Nat => es.map (· + r)) r st.np w
  have hnpl : lookupD (mapPS r st).np (v + r)
      = (lookupD st.np v).map (fun es : List Nat => es.map (· + r)) :=
    lookupD_map_shift (fun es : List Nat => es.map (· + r)) r st.np v
  have hepl : lookupD (mapPS r st).ep (v + r) = lookupD st.ep v :=
    lookupD_map_shift_id r st.ep v
  unfold visitNeighbor
  dsimp only
  rw [hcont]
  by_cases hc : containsD st.np w = true
  · rw [if_pos hc, if_pos hc]
  · rw [if_neg hc, if_neg hc]
    rw [hnpl, hepl]
    have hpv : ((lookupD st.np v).map (fun es : List Nat => es.map (· + r))).getD []
        = ((lookupD st.np v).getD []).map (· + r) := by
      cases lookupD st.np v <;> rfl
    rw [hpv]
    have hpw : ((lookupD st.np v).getD []).map (· + r) ++ [w + r]
        = (((lookupD st.np v).getD []) ++ [w]).map (· + r) := by
      simp
    rw [hpw, lastTwoIdx_shift]
    have h1 : insertD (mapPS r st).np (w + r)
          ((((lookupD st.np v).getD []) ++ [w]).map (· + r))
        = (insertD st.np w (((lookupD st.np v).getD []) ++ [w])).map
            (fun kv => (kv.1 + r, kv.2.map (· + r))) :=
      insertD_map_shift (fun es : List Nat => es.map (· + r)) r st.np w _
    have h2 : insertD (mapPS r st).ep (w + r)
          ((lookupD st.ep v).getD [] ++
            [lastTwoIdx G (((lookupD st.np v).getD []) ++ [w])])
        = (insertD st.ep w ((lookupD st.ep v).getD [] ++
            [lastTwoIdx G (((lookupD st.np v).getD []) ++ [w])])).map
            (fun kv => (kv.1 + r, kv.2)) :=
      insertD_map_shift_id r st.ep w _
    rw [h1, h2]
    unfold mapPS
    dsimp only
    rw [List.map_append]
    rfl

theorem levelPairs_shift (G : Graph) (r : Nat) (frontier : List Nat) :
    levelPairs (shiftGraph G r) (frontier.map (· + r))
      = (levelPairs G frontier).map (fun pr => (pr.1 + r, pr.2 + r)) := by
  unfold levelPairs
  rw [List.flatMap_map, List.map_flatMap]
  congr 1
  funext v
  rw [adj_shift, List.map_map, List.map_map]
  rfl

theorem foldPairs_shift (G : Graph) (r : Nat) :
    ∀ (prs : List (Nat × Nat)) (st : PathState) (next : List Nat),
      (prs.map (fun pr => (pr.1 + r, pr.2 + r))).foldl (visitPair (shiftGraph G r))
          (mapPS r st, next.map (· + r))
        = (mapPS r ((prs.foldl (visitPair G) (st, next)).1),
           ((prs.foldl (visitPair G) (st, next)).2).map (· + r)) := by
  intro prs
  induction prs with
  | nil => intro st next; rfl
  | cons pr rest ih =>
    intro st next
    simp only [List.map_cons, List.foldl_cons]
    have hstep : visitPair (shiftGraph G r) (mapPS r st, next.map (· + r))
          (pr.1 + r, pr.2 + r)
        = (mapPS r (visitPair G (st, next) pr).1,
           (visitPair G (st, next) pr).2.map (· + r)) :=
      visit_shift G r pr.1 pr.2 st next
    rw [hstep]
    have := ih (visitPair G (st, next) pr).1 (visitPair G (st, next) pr).2
    exact this

theorem processLevel_shift (G : Graph) (r : Nat) (frontier : List Nat) (st : PathState) :
    processLevel (shiftGraph G r) (frontier.map (· + r)) (mapPS r st)
      = (mapPS r (processLevel G frontier st).1,
         (processLevel G frontier st).2.map (· + r)) := by
  rw [processLevel_eq_pairs, processLevel_eq_pairs, levelPairs_shift]
  have h := foldPairs_shift G r (levelPairs G frontier) st []
  exact h

theorem bfsLoop_shift (G : Graph) (r : Nat) (cutoff : Option Nat) :
    ∀ (fuel level : Nat) (frontier : List Nat) (st : PathState),
      bfsLoop (shiftGraph G r) cutoff fuel level (frontier.map (· + r)) (mapPS r st)
        = mapPS r (bfsLoop G cutoff fuel level frontier st) := by
  intro fuel
  induction fuel with
  | zero => intro level frontier st; rfl
  | succ fuel ih =>
    intro level frontier st
    unfold bfsLoop
    by_cases hf : frontier = []
    · subst hf
      simp only [List.map_nil, if_true, eq_self_iff_true]
    · have hf' : frontier.map (· + r) ≠ [] := by simp [hf]
      rw [if_neg hf', if_neg hf]
      have hpl := processLevel_shift G r frontier st
      cases cutoff with
      | some c =>
        dsimp only
        rw [hpl]
        by_cases hcc : c ≤ level + 1
        · rw [if_pos hcc, if_pos hcc]
        · rw [if_neg hcc, if_neg hcc]
          exact ih _ _ _
      | none =>
        dsimp only
        rw [hpl]
        exact ih _ _ _

theorem fwsD_shift (G : Graph) (r s : Nat) (cutoff : Option Nat) (hs : s ∈ G.nodes) :
    fwsD (shiftGraph G r) (s + r) cutoff = mapPS r (fwsD G s cutoff) := by
  have hs' : (s + r) ∈ (shiftGraph G r).nodes := List.mem_map_of_mem _ hs
  rw [fwsD_eq cutoff hs', fwsD_eq cutoff hs]
  have hlen : (shiftGraph G r).edges.length = G.edges.length := by
    unfold shiftGraph
    simp
  rw [hlen]
  have hinit : (⟨[(s + r, [s + r])], [(s + r, [])]⟩ : PathState)
      = mapPS r ⟨[(s, [s])], [(s, [])]⟩ := rfl
  have hfr : [s + r] = [s].map (· + r) := rfl
  rw [hinit, hfr]
  exact bfsLoop_shift G r cutoff _ 0 [s] _

/-! ### Merging the per graph tables of a batch -/

theorem batched_apsp_eq (g : Graph) :
    batched_all_pairs_shortest_path g = all_pairs_shortest_path g := rfl

theorem foldInsert_append {α : Type} :
    ∀ (L acc : List (Nat × α)),
      (keysD L).Nodup → (∀ x ∈ keysD L, x ∉ keysD acc) →
      L.foldl (fun a kv => insertD a kv.1 kv.2) acc = acc ++ L := by
  intro L
  induction L with
  | nil => intro acc _ _; simp
  | cons kv rest ih =>
    intro acc hnd hfr
    simp only [List.foldl_cons]
    have hk : kv.1 ∉ keysD acc := hfr kv.1 (by simp [keysD])
    rw [insertD_fresh _ hk]
    rw [ih (acc ++ [(kv.1, kv.2)]) ?nd ?fr]
    · simp
    case nd =>
      have : keysD (kv :: rest) = kv.1 :: keysD rest := rfl
      rw [this] at hnd
      exact (List.nodup_cons.mp hnd).2
    case fr =>
      intro x hx
      rw [keysD_append]
      simp only [List.mem_append]
      rintro (h1 | h1)
      · exact hfr x (by simp [keysD]; right; simp [keysD] at hx; exact hx) h1
      · simp [keysD] at h1
        subst h1
        have : keysD (kv :: rest) = kv.1 :: keysD rest := rfl
        rw [this] at hnd
        exact (List.nodup_cons.mp hnd).1 hx

theorem relabel_keys_np (g : Graph) (hwf : g.wellFormed) (shift : Nat) :
    keysD (batched_all_pairs_shortest_path (relabelShift g shift)).1
      = (List.range g.nodes.length).map (· + shift) := by
  rw [batched_apsp_eq, relabelShift_eq_shift shift hwf]
  rw [all_pairs_keys_np]
  · show (g.nodes.map (· + shift)) = _
    rw [hwf.1]
    simp
  · show (g.nodes.map (· + shift)).Nodup
    rw [hwf.1]
    exact (List.nodup_range _).map (fun a b h => by omega)

theorem relabel_keys_ep (g : Graph) (hwf : g.wellFormed) (shift : Nat) :
    keysD (batched_all_pairs_shortest_path (relabelShift g shift)).2
      = (List.range g.nodes.length).map (· + shift) := by
  rw [batched_apsp_eq, relabelShift_eq_shift shift hwf]
  rw [all_pairs_keys_ep]
  · show (g.nodes.map (· + shift)) = _
    rw [hwf.1]
    simp
  · show (g.nodes.map (· + shift)).Nodup
    rw [hwf.1]
    exact (List.nodup_range _).map (fun a b h => by omega)

theorem relabelAll_keys_bounds (graphs : List Graph) :
    ∀ shift, (∀ g ∈ graphs, g.wellFormed) →
      ∀ h ∈ relabelAll graphs shift,
        ∀ x ∈ keysD (batched_all_pairs_shortest_path h).1,
          shift ≤ x ∧ x < shift + (graphs.map (fun g => g.nodes.length)).sum := by
  induction graphs with
  | nil => intro shift _ h hh; cases hh
  | cons g rest ih =>
    intro shift hwf h hh
    have hwfg : g.wellFormed := hwf g (List.mem_cons_self g rest)
    rcases List.mem_cons.mp hh with h1 | h1
    · subst h1
      intro x hx
      rw [relabel_keys_np g hwfg shift] at hx
      obtain ⟨y, hy, he⟩ := List.mem_map.mp hx
      have := List.mem_range.mp hy
      subst he
      simp only [List.map_cons, List.sum_cons]
      omega
    · intro x hx
      have := ih (shift + g.nodes.length)
        (fun q hq => hwf q (List.mem_cons_of_mem g hq)) h h1 x hx
      simp only [List.map_cons, List.sum_cons]
      omega

theorem relabelAll_pairwise (graphs : List Graph) :
    ∀ shift, (∀ g ∈ graphs, g.wellFormed) →
      List.Pairwise (fun a b => ∀ x ∈ keysD (batched_all_pairs_shortest_path a).1,
        x ∉ keysD (batched_all_pairs_shortest_path b).1) (relabelAll graphs shift) := by
  induction graphs with
  | nil => intro shift _; exact List.Pairwise.nil
  | cons g rest ih =>
    intro shift hwf
    have hwfg : g.wellFormed := hwf g (List.mem_cons_self g rest)
    refine List.Pairwise.cons ?_ (ih (shift + g.nodes.length)
      (fun q hq => hwf q (List.mem_cons_of_mem g hq)))
    intro b hb x hx hxb
    rw [relabel_keys_np g hwfg shift] at hx
    obtain ⟨y, hy, he⟩ := List.mem_map.mp hx
    have hylt := List.mem_range.mp hy
    subst he
    have := (relabelAll_keys_bounds rest (shift + g.nodes.length)
      (fun q hq => hwf q (List.mem_cons_of_mem g hq)) b hb (y + shift) hxb).1
    omega

theorem mergeTables_eq_flatten :
    ∀ (gs : List Graph) (accN accE : List (Nat × List (Nat × List Nat))),
      (∀ g ∈ gs, (keysD (batched_all_pairs_shortest_path g).1).Nodup ∧
        keysD (batched_all_pairs_shortest_path g).2 =
          keysD (batched_all_pairs_shortest_path g).1) →
      (∀ g ∈ gs, ∀ x ∈ keysD (batched_all_pairs_shortest_path g).1,
        x ∉ keysD accN ∧ x ∉ keysD accE) →
      List.Pairwise (fun a b => ∀ x ∈ keysD (batched_all_pairs_shortest_path a).1,
        x ∉ keysD (batched_all_pairs_shortest_path b).1) gs →
      gs.foldl (fun acc g =>
          let p := batched_all_pairs_shortest_path g
          (p.1.foldl (fun a kv => insertD a kv.1 kv.2) acc.1,
           p.2.foldl (fun a kv => insertD a kv.1 kv.2) acc.2)) (accN, accE)
        = (accN ++ (gs.map (fun g => (batched_all_pairs_shortest_path g).1)).flatten,
           accE ++ (gs.map (fun g => (batched_all_pairs_shortest_path g).2)).flatten) := by
  intro gs
  induction gs with
  | nil => intro accN accE _ _ _; simp
  | cons g rest ih =>
    intro accN accE hnd hfr hpw
    obtain ⟨hgnd, hgkeq⟩ := hnd g (List.mem_cons_self g rest)
    simp only [List.foldl_cons]
    have hN : (batched_all_pairs_shortest_path g).1.foldl
          (fun a kv => insertD a kv.1 kv.2) accN
        = accN ++ (batched_all_pairs_shortest_path g).1 :=
      foldInsert_append _ accN hgnd
        (fun x hx => (hfr g (List.mem_cons_self g rest) x hx).1)
    have hE : (batched_all_pairs_shortest_path g).2.foldl
          (fun a kv => insertD a kv.1 kv.2) accE
        = accE ++ (batched_all_pairs_shortest_path g).2 :=
      foldInsert_append _ accE (hgkeq ▸ hgnd)
        (fun x hx => (hfr g (List.mem_cons_self g rest) x (hgkeq ▸ hx)).2)
    rw [hN, hE]
    rw [ih (accN ++ (batched_all_pairs_shortest_path g).1)
      (accE ++ (batched_all_pairs_shortest_path g).2)
      (fun q hq => hnd q (List.mem_cons_of_mem g hq)) ?fresh
      (List.Pairwise.sublist (List.sublist_cons_self g rest) hpw)]
    · simp
    case fresh =>
      intro q hq x hx
      obtain ⟨hq1, hq2⟩ := hfr q (List.mem_cons_of_mem g hq) x hx
      have hnotg : x ∉ keysD (batched_all_pairs_shortest_path g).1 :=
        fun hg => (List.pairwise_cons.mp hpw).1 q hq x hg hx
      constructor
      · rw [keysD_append]
        simp only [List.mem_append]
        rintro (h1 | h1)
        · exact hq1 h1
        · exact hnotg h1
      · rw [keysD_append]
        simp only [List.mem_append]
        rintro (h1 | h1)
        · exact hq2 h1
        · exact hnotg (hgkeq ▸ h1)

theorem relabelAll_table_hyp (graphs : List Graph) :
    ∀ shift, (∀ g ∈ graphs, g.wellFormed) →
      ∀ h ∈ relabelAll graphs shift,
        (keysD (batched_all_pairs_shortest_path h).1).Nodup ∧
        keysD (batched_all_pairs_shortest_path h).2 =
          keysD (batched_all_pairs_shortest_path h).1 := by
  induction graphs with
  | nil => intro shift _ h hh; cases hh
  | cons g rest ih =>
    intro shift hwf h hh
    have hwfg : g.wellFormed := hwf g (List.mem_cons_self g rest)
    rcases List.mem_cons.mp hh with h1 | h1
    · subst h1
      rw [relabel_keys_np g hwfg shift, relabel_keys_ep g hwfg shift]
      exact ⟨(List.nodup_range _).map (fun a b hab => by omega), rfl⟩
    · exact ih (shift + g.nodes.length)
        (fun q hq => hwf q (List.mem_cons_of_mem g hq)) h h1

theorem batched_eq_flatten (graphs : List Graph) (shift : Nat)
    (hwf : ∀ g ∈ graphs, g.wellFormed) :
    mergeTables (relabelAll graphs shift)
      = (((relabelAll graphs shift).map
            (fun g => (batched_all_pairs_shortest_path g).1)).flatten,
         ((relabelAll graphs shift).map
            (fun g => (batched_all_pairs_shortest_path g).2)).flatten) := by
  unfold mergeTables
  rw [mergeTables_eq_flatten _ [] []
    (relabelAll_table_hyp graphs shift hwf)
    (fun g _ x _ => ⟨by simp [keysD], by simp [keysD]⟩)
    (relabelAll_pairwise graphs shift hwf)]
  simp

theorem offsetOf_zero (graphs : List Graph) : offsetOf graphs 0 = 0 := rfl

theorem offsetOf_cons_succ (g : Graph) (rest : List Graph) (i : Nat) :
    offsetOf (g :: rest) (i + 1) = g.nodes.length + offsetOf rest i := by
  unfold offsetOf
  simp

theorem relabelAll_flatten_keys_np (graphs : List Graph) :
    ∀ shift, (∀ g ∈ graphs, g.wellFormed) →
      ((relabelAll graphs shift).map
          (fun g => keysD (batched_all_pairs_shortest_path g).1)).flatten
        = (List.range ((graphs.map (fun g => g.nodes.length)).sum)).map (· + shift) := by
  induction graphs with
  | nil => intro shift _; rfl
  | cons g rest ih =>
    intro shift hwf
    have hwfg : g.wellFormed := hwf g (List.mem_cons_self g rest)
    show keysD (batched_all_pairs_shortest_path (relabelShift g shift)).1 ++ _ = _
    rw [relabel_keys_np g hwfg shift,
      ih (shift + g.nodes.length) (fun q hq => hwf q (List.mem_cons_of_mem g hq))]
    simp only [List.map_cons, List.sum_cons]
    rw [List.range_add, List.map_append, List.map_map]
    congr 1
    apply List.map_congr_left
    intro x _
    show x + (shift + g.nodes.length) = g.nodes.length + x + shift
    omega

theorem relabelAll_flatten_keys_ep (graphs : List Graph) :
    ∀ shift, (∀ g ∈ graphs, g.wellFormed) →
      ((relabelAll graphs shift).map
          (fun g => keysD (batched_all_pairs_shortest_path g).2)).flatten
        = (List.range ((graphs.map (fun g => g.nodes.length)).sum)).map (· + shift) := by
  induction graphs with
  | nil => intro shift _; rfl
  | cons g rest ih =>
    intro shift hwf
    have hwfg : g.wellFormed := hwf g (List.mem_cons_self g rest)
    show keysD (batched_all_pairs_shortest_path (relabelShift g shift)).2 ++ _ = _
    rw [relabel_keys_ep g hwfg shift,
      ih (shift + g.nodes.length) (fun q hq => hwf q (List.mem_cons_of_mem g hq))]
    simp only [List.map_cons, List.sum_cons]
    rw [List.range_add, List.map_append, List.map_map]
    congr 1
    apply List.map_congr_left
    intro x _
    show x + (shift + g.nodes.length) = g.nodes.length + x + shift
    omega

theorem keysD_flatten {α : Type} (Ls : List (List (Nat × α))) :
    keysD Ls.flatten = (Ls.map keysD).flatten := by
  unfold keysD
  rw [List.map_flatten]

theorem batched_keys_np (graphs : List Graph) (hwf : ∀ g ∈ graphs, g.wellFormed) :
    keysD (batched_shortest_path_distance graphs).1
      = List.range ((graphs.map (fun g => g.nodes.length)).sum) := by
  unfold batched_shortest_path_distance
  rw [batched_eq_flatten graphs 0 hwf]
  show keysD (((relabelAll graphs 0).map
      (fun g => (batched_all_pairs_shortest_path g).1)).flatten) = _
  rw [keysD_flatten, List.map_map]
  have h := relabelAll_flatten_keys_np graphs 0 hwf
  have h2 : ((relabelAll graphs 0).map
      (keysD ∘ fun g => (batched_all_pairs_shortest_path g).1)).flatten
      = ((relabelAll graphs 0).map
          (fun g => keysD (batched_all_pairs_shortest_path g).1)).flatten := rfl
  rw [h2, h]
  rw [List.map_congr_left (fun x _ => rfl : ∀ x ∈ List.range _, x + 0 = id x)]
  exact List.map_id _

theorem batched_keys_ep (graphs : List Graph) (hwf : ∀ g ∈ graphs, g.wellFormed) :
    keysD (batched_shortest_path_distance graphs).2
      = List.range ((graphs.map (fun g => g.nodes.length)).sum) := by
  unfold batched_shortest_path_distance
  rw [batched_eq_flatten graphs 0 hwf]
  show keysD (((relabelAll graphs 0).map
      (fun g => (batched_all_pairs_shortest_path g).2)).flatten) = _
  rw [keysD_flatten, List.map_map]
  have h := relabelAll_flatten_keys_ep graphs 0 hwf
  have h2 : ((relabelAll graphs 0).map
      (keysD ∘ fun g => (batched_all_pairs_shortest_path g).2)).flatten
      = ((relabelAll graphs 0).map
          (fun g => keysD (batched_all_pairs_shortest_path g).2)).flatten := rfl
  rw [h2, h]
  rw [List.map_congr_left (fun x _ => rfl : ∀ x ∈ List.range _, x + 0 = id x)]
  exact List.map_id _

theorem flatten_lookup (graphs : List Graph) :
    ∀ (shift : Nat), (∀ g ∈ graphs, g.wellFormed) →
      ∀ (i : Nat) (hi : i < graphs.length) (s : Nat),
        s < (graphs.get ⟨i, hi⟩).nodes.length →
        lookupD (((relabelAll graphs shift).map
            (fun g => (batched_all_pairs_shortest_path g).1)).flatten)
            (s + (shift + offsetOf graphs i))
          = some (fwsD (shiftGraph (graphs.get ⟨i, hi⟩) (shift + offsetOf graphs i))
              (s + (shift + offsetOf graphs i)) none).np ∧
        lookupD (((relabelAll graphs shift).map
            (fun g => (batched_all_pairs_shortest_path g).2)).flatten)
            (s + (shift + offsetOf graphs i))
          = some (fwsD (shiftGraph (graphs.get ⟨i, hi⟩) (shift + offsetOf graphs i))
              (s + (shift + offsetOf graphs i)) none).ep := by
  induction graphs with
  | nil => intro shift _ i hi; cases hi
  | cons g rest ih =>
    intro shift hwf i hi s hs
    have hwfg : g.wellFormed := hwf g (List.mem_cons_self g rest)
    have hT1 : keysD (batched_all_pairs_shortest_path (relabelShift g shift)).1
        = (List.range g.nodes.length).map (· + shift) := relabel_keys_np g hwfg shift
    have hT2 : keysD (batched_all_pairs_shortest_path (relabelShift g shift)).2
        = (List.range g.nodes.length).map (· + shift) := relabel_keys_ep g hwfg shift
    cases i with
    | zero =>
      have hmem1 : (s + (shift + offsetOf (g :: rest) 0))
          ∈ keysD (batched_all_pairs_shortest_path (relabelShift g shift)).1 := by
        rw [offsetOf_zero, hT1]
        exact List.mem_map.mpr ⟨s, List.mem_range.mpr hs, by omega⟩
      have hmem2 : (s + (shift + offsetOf (g :: rest) 0))
          ∈ keysD (batched_all_pairs_shortest_path (relabelShift g shift)).2 := by
        rw [offsetOf_zero, hT2]
        exact List.mem_map.mpr ⟨s, List.mem_range.mpr hs, by omega⟩
      have hnodes : (s + (shift + offsetOf (g :: rest) 0))
          ∈ (shiftGraph g shift).nodes := by
        show _ ∈ g.nodes.map (· + shift)
        refine List.mem_map.mpr ⟨s, ?_, ?_⟩
        · rw [hwfg.1]
          exact List.mem_range.mpr hs
        · show s + shift = s + (shift + offsetOf (g :: rest) 0)
          rw [offsetOf_zero]
          omega
      constructor
      · show lookupD ((batched_all_pairs_shortest_path (relabelShift g shift)).1 ++ _) _ = _
        rw [lookupD_append_left _ hmem1]
        rw [batched_apsp_eq, relabelShift_eq_shift shift hwfg, all_pairs_lookup_np,
          if_pos hnodes]
        rfl
      · show lookupD ((batched_all_pairs_shortest_path (relabelShift g shift)).2 ++ _) _ = _
        rw [lookupD_append_left _ hmem2]
        rw [batched_apsp_eq, relabelShift_eq_shift shift hwfg, all_pairs_lookup_ep,
          if_pos hnodes]
        rfl
    | succ i =>
      have hsh : shift + offsetOf (g :: rest) (i + 1)
          = shift + g.nodes.length + offsetOf rest i := by
        rw [offsetOf_cons_succ]
        omega
      have hnot1 : (s + (shift + offsetOf (g :: rest) (i + 1)))
          ∉ keysD (batched_all_pairs_shortest_path (relabelShift g shift)).1 := by
        rw [hT1, offsetOf_cons_succ]
        intro hm
        obtain ⟨y, hy, he⟩ := List.mem_map.mp hm
        have := List.mem_range.mp hy
        omega
      have hnot2 : (s + (shift + offsetOf (g :: rest) (i + 1)))
          ∉ keysD (batched_all_pairs_shortest_path (relabelShift g shift)).2 := by
        rw [hT2, offsetOf_cons_succ]
        intro hm
        obtain ⟨y, hy, he⟩ := List.mem_map.mp hm
        have := List.mem_range.mp hy
        omega
      have hih := ih (shift + g.nodes.length)
        (fun q hq => hwf q (List.mem_cons_of_mem g hq)) i
        (by have h9 := hi; simp only [List.length_cons] at h9; omega) s hs
      constructor
      · show lookupD ((batched_all_pairs_shortest_path (relabelShift g shift)).1 ++ _) _ = _
        rw [lookupD_append_right _ hnot1, hsh]
        exact hih.1
      · show lookupD ((batched_all_pairs_shortest_path (relabelShift g shift)).2 ++ _) _ = _
        rw [lookupD_append_right _ hnot2, hsh]
        exact hih.2

/-- C5: merging a batch of disjoint well formed graphs relabels each
graph by the sum of the preceding node counts: the top level keys of
both merged tables are exactly `0 .. total-1`, partitioning into the per
graph contiguous ranges, and the destinations under a source of graph
`i` stay inside graph `i`'s range, so no cross graph (source,
destination) pair is present. -/
theorem batched_partition (graphs : List Graph) (hwf : ∀ g ∈ graphs, g.wellFormed) :
    keysD (batched_shortest_path_distance graphs).1
        = List.range ((graphs.map (fun g => g.nodes.length)).sum) ∧
    keysD (batched_shortest_path_distance graphs).2
        = List.range ((graphs.map (fun g => g.nodes.length)).sum) ∧
    ∀ i, ∀ hi : i < graphs.length, ∀ s tbl,
      offsetOf graphs i ≤ s →
      s < offsetOf graphs i + (graphs.get ⟨i, hi⟩).nodes.length →
      lookupD (batched_shortest_path_distance graphs).1 s = some tbl →
      ∀ t ∈ keysD tbl,
        offsetOf graphs i ≤ t ∧
          t < offsetOf graphs i + (graphs.get ⟨i, hi⟩).nodes.length := by
  refine ⟨batched_keys_np graphs hwf, batched_keys_ep graphs hwf, ?_⟩
  intro i hi s tbl hs1 hs2 hlook t ht
  have hwfg : (graphs.get ⟨i, hi⟩).wellFormed := hwf _ (List.get_mem graphs i hi)
  have hs0 : s - offsetOf graphs i < (graphs.get ⟨i, hi⟩).nodes.length := by omega
  have hfl := (flatten_lookup graphs 0 hwf i hi (s - offsetOf graphs i) hs0).1
  simp only [Nat.zero_add] at hfl
  have hseq : s - offsetOf graphs i + offsetOf graphs i = s := by omega
  rw [hseq] at hfl
  have hmerged : (batched_shortest_path_distance graphs).1
      = ((relabelAll graphs 0).map
          (fun g => (batched_all_pairs_shortest_path g).1)).flatten := by
    unfold batched_shortest_path_distance
    rw [batched_eq_flatten graphs 0 hwf]
  rw [hmerged, hfl] at hlook
  injection hlook with hlook
  subst hlook
  have hsn : s ∈ (shiftGraph (graphs.get ⟨i, hi⟩) (offsetOf graphs i)).nodes := by
    show s ∈ (graphs.get ⟨i, hi⟩).nodes.map (· + offsetOf graphs i)
    rw [hwfg.1]
    refine List.mem_map.mpr ⟨s - offsetOf graphs i, List.mem_range.mpr hs0, by omega⟩
  have R := fwsD_resultInv none hsn
  obtain ⟨p, hp⟩ := (lookupD_isSome _ t).mpr ht
  have hwalk := (R.sound t p hp).1
  have hlast := walk_concat hwalk
  obtain ⟨q, hq⟩ := hlast
  have hmem : t ∈ p := by rw [hq]; simp
  rcases walk_mem hwalk t hmem with h1 | h1
  · subst h1
    exact ⟨hs1, hs2⟩
  · obtain ⟨e, he, hes⟩ := List.mem_map.mp h1
    obtain ⟨e0, he0, he0s⟩ := List.mem_map.mp he
    have h2 := (hwfg.2 e0 he0).2
    rw [hwfg.1] at h2
    have h3 := List.mem_range.mp h2
    subst he0s
    subst hes
    show offsetOf graphs i ≤ e0.2 + offsetOf graphs i ∧ _
    constructor
    · omega
    · omega

/-- C5 witness: a batch of two disjoint graphs with 3 and 4 nodes: the
merged keys are `0..6`, partitioned into `{0,1,2}` and `{3,4,5,6}`, with
no cross graph pair. -/
theorem batched_partition_witness :
    keysD (batched_shortest_path_distance
        [⟨[0,1,2], [(0,1),(1,0),(1,2),(2,1)]⟩, ⟨[0,1,2,3], [(0,1),(1,0),(2,3),(3,2)]⟩]).1
        = List.range (([(⟨[0,1,2], [(0,1),(1,0),(1,2),(2,1)]⟩ : Graph),
            ⟨[0,1,2,3], [(0,1),(1,0),(2,3),(3,2)]⟩].map (fun g => g.nodes.length)).sum) ∧
    keysD (batched_shortest_path_distance
        [⟨[0,1,2], [(0,1),(1,0),(1,2),(2,1)]⟩, ⟨[0,1,2,3], [(0,1),(1,0),(2,3),(3,2)]⟩]).2
        = List.range (([(⟨[0,1,2], [(0,1),(1,0),(1,2),(2,1)]⟩ : Graph),
            ⟨[0,1,2,3], [(0,1),(1,0),(2,3),(3,2)]⟩].map (fun g => g.nodes.length)).sum) ∧
    ∀ i, ∀ hi : i < ([(⟨[0,1,2], [(0,1),(1,0),(1,2),(2,1)]⟩ : Graph),
        ⟨[0,1,2,3], [(0,1),(1,0),(2,3),(3,2)]⟩] : List Graph).length, ∀ s tbl,
      offsetOf [⟨[0,1,2], [(0,1),(1,0),(1,2),(2,1)]⟩,
        ⟨[0,1,2,3], [(0,1),(1,0),(2,3),(3,2)]⟩] i ≤ s →
      s < offsetOf [⟨[0,1,2], [(0,1),(1,0),(1,2),(2,1)]⟩,
          ⟨[0,1,2,3], [(0,1),(1,0),(2,3),(3,2)]⟩] i +
        (([(⟨[0,1,2], [(0,1),(1,0),(1,2),(2,1)]⟩ : Graph),
          ⟨[0,1,2,3], [(0,1),(1,0),(2,3),(3,2)]⟩] : List Graph).get ⟨i, hi⟩).nodes.length →
      lookupD (batched_shortest_path_distance
        [⟨[0,1,2], [(0,1),(1,0),(1,2),(2,1)]⟩,
          ⟨[0,1,2,3], [(0,1),(1,0),(2,3),(3,2)]⟩]).1 s = some tbl →
      ∀ t ∈ keysD tbl,
        offsetOf [⟨[0,1,2], [(0,1),(1,0),(1,2),(2,1)]⟩,
          ⟨[0,1,2,3], [(0,1),(1,0),(2,3),(3,2)]⟩] i ≤ t ∧
          t < offsetOf [⟨[0,1,2], [(0,1),(1,0),(1,2),(2,1)]⟩,
              ⟨[0,1,2,3], [(0,1),(1,0),(2,3),(3,2)]⟩] i +
            (([(⟨[0,1,2], [(0,1),(1,0),(1,2),(2,1)]⟩ : Graph),
              ⟨[0,1,2,3], [(0,1),(1,0),(2,3),(3,2)]⟩] : List Graph).get ⟨i, hi⟩).nodes.length :=
  batched_partition
    [⟨[0,1,2], [(0,1),(1,0),(1,2),(2,1)]⟩, ⟨[0,1,2,3], [(0,1),(1,0),(2,3),(3,2)]⟩]
    (by decide)

/-- C10: in the batched indexer only node keys are offset.  For every
graph of the batch and every source, the merged `edge_paths` table under
the offset keys is the single graph `edge_paths` table of that graph
alone: destination keys shift by the offset, while the stored edge index
values are identical — each graph's own local edge enumeration starting
from 0, so edge indices of different graphs in one batch coincide rather
than being globally unique. -/
theorem batched_edge_paths_local (graphs : List Graph)
    (hwf : ∀ g ∈ graphs, g.wellFormed) :
    ∀ i, ∀ hi : i < graphs.length, ∀ s, s ∈ (graphs.get ⟨i, hi⟩).nodes →
      ∃ tbl tbl0,
        lookupD (batched_shortest_path_distance graphs).2 (s + offsetOf graphs i)
            = some tbl ∧
        lookupD (batched_all_pairs_shortest_path (graphs.get ⟨i, hi⟩)).2 s
            = some tbl0 ∧
        keysD tbl = (keysD tbl0).map (· + offsetOf graphs i) ∧
        (∀ t, lookupD tbl (t + offsetOf graphs i) = lookupD tbl0 t) := by
  intro i hi s hs
  have hwfg : (graphs.get ⟨i, hi⟩).wellFormed := hwf _ (List.get_mem graphs i hi)
  have hslt : s < (graphs.get ⟨i, hi⟩).nodes.length := by
    rw [hwfg.1] at hs
    exact List.mem_range.mp hs
  have hfl := (flatten_lookup graphs 0 hwf i hi s hslt).2
  simp only [Nat.zero_add] at hfl
  have hmerged : (batched_shortest_path_distance graphs).2
      = ((relabelAll graphs 0).map
          (fun g => (batched_all_pairs_shortest_path g).2)).flatten := by
    unfold batched_shortest_path_distance
    rw [batched_eq_flatten graphs 0 hwf]
  have hshift := fwsD_shift (graphs.get ⟨i, hi⟩) (offsetOf graphs i) s none hs
  rw [hshift] at hfl
  refine ⟨(mapPS (offsetOf graphs i) (fwsD (graphs.get ⟨i, hi⟩) s none)).ep,
    (fwsD (graphs.get ⟨i, hi⟩) s none).ep, ?_, ?_, ?_, ?_⟩
  · rw [hmerged]
    exact hfl
  · rw [batched_apsp_eq, all_pairs_lookup_ep, if_pos hs]
  · show keysD ((fwsD (graphs.get ⟨i, hi⟩) s none).ep.map
        (fun kv => (kv.1 + offsetOf graphs i, kv.2))) = _
    unfold keysD
    rw [List.map_map, List.map_map]
    rfl
  · intro t
    exact lookupD_map_shift_id (offsetOf graphs i) (fwsD (graphs.get ⟨i, hi⟩) s none).ep t

/-- C10 witness: in the two graph batch of the C5 scenario, source 1 of
the second graph (merged key `1 + 3 = 4`): its merged edge paths carry
the same local edge indices as the single graph computation on that
graph alone, with destination keys shifted by the offset 3. -/
theorem batched_edge_paths_local_witness :
    ∃ tbl tbl0,
      lookupD (batched_shortest_path_distance
          [⟨[0,1,2], [(0,1),(1,0),(1,2),(2,1)]⟩,
            ⟨[0,1,2,3], [(0,1),(1,0),(2,3),(3,2)]⟩]).2
          (1 + offsetOf [⟨[0,1,2], [(0,1),(1,0),(1,2),(2,1)]⟩,
            ⟨[0,1,2,3], [(0,1),(1,0),(2,3),(3,2)]⟩] 1) = some tbl ∧
      lookupD (batched_all_pairs_shortest_path
          (([(⟨[0,1,2], [(0,1),(1,0),(1,2),(2,1)]⟩ : Graph),
            ⟨[0,1,2,3], [(0,1),(1,0),(2,3),(3,2)]⟩] : List Graph).get
            ⟨1, by decide⟩)).2 1 = some tbl0 ∧
      keysD tbl = (keysD tbl0).map
        (· + offsetOf [⟨[0,1,2], [(0,1),(1,0),(1,2),(2,1)]⟩,
          ⟨[0,1,2,3], [(0,1),(1,0),(2,3),(3,2)]⟩] 1) ∧
      (∀ t, lookupD tbl
          (t + offsetOf [⟨[0,1,2], [(0,1),(1,0),(1,2),(2,1)]⟩,
            ⟨[0,1,2,3], [(0,1),(1,0),(2,3),(3,2)]⟩] 1) = lookupD tbl0 t) :=
  batched_edge_paths_local
    [⟨[0,1,2], [(0,1),(1,0),(1,2),(2,1)]⟩, ⟨[0,1,2,3], [(0,1),(1,0),(2,3),(3,2)]⟩]
    (by decide) 1 (by decide) 1 (by decide)
